import Mathlib

/-!
# libqapt: transaction scheduling and the qapt-batch client

A shallow embedding of parts of libqapt:

* `TransactionQueue` (`src/worker/transactionqueue.h`): the header gives the
  fields and the operation signatures; the bodies are not part of the sources
  at hand and are modelled from the design document.
* `QAptBatch` (`utils/qapt-batch/qaptbatch.cpp`): the batch client, a progress
  dialog driven by the signals of the privileged worker.
* `DebFile` (`src/debfile.cpp`): the description and installed-size fields of
  an archive.
* `Changelog` and `ChangelogEntry` (`src/changelog.cpp`): the division of a
  changelog text into entries and the version of an entry.
* `Package::state` (`src/package.cpp`): the flag word of a package.
-/

namespace QApt

/-! ## TransactionQueue -/

/-- Modelled from the spec: the `Transaction` class is not among the sources.
The states of a transaction (section 4.2), with `Unconfirmed` for a transaction
that was added but not yet enqueued. -/
inductive TransactionState where
  | Unconfirmed
  | Pending
  | Active
  | Finished
  | Failed
  | Cancelled
  deriving DecidableEq, Repr

/-- Modelled from the spec: the terminal states a running transaction can end in;
`onTransactionFinished(int exitCode)` receives one of them. -/
inductive ExitCode where
  | Finished
  | Failed
  | Cancelled
  deriving DecidableEq, Repr

/-- Terminal state selected by an exit code. -/
def ExitCode.toState : ExitCode → TransactionState
  | .Finished => .Finished
  | .Failed => .Failed
  | .Cancelled => .Cancelled

/-- The fields `m_queue`, `m_pending` and `m_activeTransaction` are those of the
header; a transaction is referred to by its id (`QString`). `retired` is the
fourth set of the data model, `state` holds the state of every transaction
object, and `enqueued`, `activated`, `removed` are history variables: the
order in which transactions were confirmed, promoted and removed. -/
structure TransactionQueue where
  m_queue : List String
  m_pending : List String
  m_activeTransaction : Option String
  retired : List String
  state : String → Option TransactionState
  enqueued : List String
  activated : List String
  removed : List String

namespace TransactionQueue

/-- The queue built by the constructor: nothing pending, queued or active. -/
def empty : TransactionQueue :=
  { m_queue := [], m_pending := [], m_activeTransaction := none, retired := [],
    state := fun _ => none, enqueued := [], activated := [], removed := [] }

/-- Accessor `activeTransaction()` of the header. -/
def activeTransaction (q : TransactionQueue) : Option String :=
  q.m_activeTransaction

/-- Modelled from the spec: `transactions()` is not among the sources. The known
transactions in queue order, the Active one first. -/
def transactions (q : TransactionQueue) : List String :=
  q.m_activeTransaction.toList ++ q.m_queue

/-- Every id the queue has ever held, set by set. -/
def ids (q : TransactionQueue) : List String :=
  q.m_pending ++ (q.m_queue ++ (q.m_activeTransaction.toList ++ q.retired))

/-- Modelled from the spec: the body of `addPending` is not among the sources.
Registers a transaction as unconfirmed; no effect on the queue or on Active. -/
def addPending (q : TransactionQueue) (trans : String) : TransactionQueue :=
  { q with m_pending := q.m_pending ++ [trans],
           state := Function.update q.state trans (some .Unconfirmed) }

/-- Modelled from the spec: the body of `runNextTransaction` is not among the
sources. Promotes the head of the confirmed queue, only when no transaction is
Active. -/
def runNextTransaction (q : TransactionQueue) : TransactionQueue :=
  match q.m_activeTransaction, q.m_queue with
  | none, t :: rest =>
      { q with m_queue := rest, m_activeTransaction := some t,
               state := Function.update q.state t (some .Active),
               activated := q.activated ++ [t] }
  | _, _ => q

/-- Modelled from the spec: the body of `enqueue` is not among the sources. Moves
a previously added pending transaction to the back of the confirmed queue and
promotes when nothing is Active; an unknown id changes nothing. -/
def enqueue (q : TransactionQueue) (tid : String) : TransactionQueue :=
  if tid ∈ q.m_pending then
    runNextTransaction
      { q with m_pending := q.m_pending.erase tid,
               m_queue := q.m_queue ++ [tid],
               state := Function.update q.state tid (some .Pending),
               enqueued := q.enqueued ++ [tid] }
  else q

/-- Modelled from the spec: the body of `remove` is not among the sources.
Removes a transaction that is queued and not yet active (it ends Cancelled);
the Active transaction and unknown ids are left alone. -/
def remove (q : TransactionQueue) (tid : String) : TransactionQueue :=
  if tid ∈ q.m_queue then
    { q with m_queue := q.m_queue.erase tid,
             retired := q.retired ++ [tid],
             state := Function.update q.state tid (some .Cancelled),
             removed := q.removed ++ [tid] }
  else q

/-- Modelled from the spec: the body of `onTransactionFinished` is not among the
sources. The Active transaction reaches its terminal state and is retired, then
the new head of the confirmed queue is promoted. -/
def onTransactionFinished (q : TransactionQueue) (exitCode : ExitCode) :
    TransactionQueue :=
  match q.m_activeTransaction with
  | none => q
  | some t =>
      runNextTransaction
        { q with m_activeTransaction := none,
                 retired := q.retired ++ [t],
                 state := Function.update q.state t (some exitCode.toState) }

/-- The five operations of the claim, as one request type. -/
inductive Op where
  | addPending (trans : String)
  | enqueue (tid : String)
  | remove (tid : String)
  | onTransactionFinished (exitCode : ExitCode)
  | runNextTransaction
  deriving DecidableEq, Repr

/-- One operation applied to a queue. -/
def step (q : TransactionQueue) : Op → TransactionQueue
  | .addPending t => q.addPending t
  | .enqueue t => q.enqueue t
  | .remove t => q.remove t
  | .onTransactionFinished e => q.onTransactionFinished e
  | .runNextTransaction => q.runNextTransaction

/-- Ids are unique and assigned when a transaction is created (section 3), so the
transaction handed to `addPending` carries an id the queue has not seen. The
other operations take any argument. -/
def Admissible (q : TransactionQueue) : Op → Prop
  | .addPending t => t ∉ q.ids
  | _ => True

instance (q : TransactionQueue) (op : Op) : Decidable (Admissible q op) := by
  cases op <;> unfold Admissible <;> infer_instance

/-- States reachable from the empty queue. -/
inductive Reachable : TransactionQueue → Prop where
  | empty : Reachable TransactionQueue.empty
  | step {q : TransactionQueue} (op : Op) :
      Reachable q → Admissible q op → Reachable (q.step op)

/-- Number of the four sets that hold the id, counted with multiplicity. -/
def occurrences (q : TransactionQueue) (tid : String) : Nat :=
  q.m_pending.count tid + q.m_queue.count tid
    + q.m_activeTransaction.toList.count tid + q.retired.count tid

/-- Scenario A of the design document: T1 and T2 are added and enqueued in
that order on an empty queue. -/
def scenarioA : TransactionQueue :=
  (((empty.step (.addPending "T1")).step (.enqueue "T1")).step
    (.addPending "T2")).step (.enqueue "T2")

/-- Scenario A followed by the end of T1. -/
def scenarioB : TransactionQueue :=
  scenarioA.step (.onTransactionFinished .Failed)

/-- The invariant of the scheduler: every id sits in at most one set, the
state of a transaction agrees with the set that holds it, and the confirmed
transactions that were not removed are, in order, the promoted ones followed
by the waiting ones. -/
structure Inv (q : TransactionQueue) : Prop where
  occ : ∀ t, q.occurrences t ≤ 1
  st_pending : ∀ t ∈ q.m_pending, q.state t = some .Unconfirmed
  st_queue : ∀ t ∈ q.m_queue, q.state t = some .Pending
  st_active : ∀ t, q.m_activeTransaction = some t → q.state t = some .Active
  st_other : ∀ t, t ∉ q.m_pending → t ∉ q.m_queue → q.m_activeTransaction ≠ some t →
    q.state t ≠ some .Active
  fifo : q.enqueued.filter (fun t => decide (t ∉ q.removed)) = q.activated ++ q.m_queue
  activated_sub : ∀ t ∈ q.activated, q.m_activeTransaction = some t ∨ t ∈ q.retired
  removed_sub : ∀ t ∈ q.removed, t ∈ q.retired
  activated_nodup : q.activated.Nodup

end TransactionQueue

/-! ## Qt value types used by the batch client -/

/-- The variants of `QVariant` that travel in the worker's argument maps. -/
inductive QVariant where
  | Invalid
  | Boolean (b : Bool)
  | Integer (n : Int)
  | Str (s : String)
  | StrList (l : List String)
  deriving DecidableEq, Repr

namespace QVariant

/-- The conversion `QVariant::toString()`: a list converts only when it has
exactly one element. -/
def toString : QVariant → String
  | .Invalid => ""
  | .Boolean b => if b then "true" else "false"
  | .Integer n => ToString.toString n
  | .Str s => s
  | .StrList [x] => x
  | .StrList _ => ""

/-- The conversion `QVariant::toStringList()`. -/
def toStringList : QVariant → List String
  | .Str s => [s]
  | .StrList l => l
  | _ => []

end QVariant

/-- A `QMap<QString, T>`: entries kept in ascending key order, one per key. -/
abbrev QMap (α : Type) := List (String × α)

namespace QMap

/-- The operation `QMap::insert`: replaces the value of a key that is present,
else adds the entry at its place in key order (strings compared character by
character). -/
def insert {α : Type} (k : String) (v : α) : QMap α → QMap α
  | [] => [(k, v)]
  | (k', v') :: rest =>
      if k.toList < k'.toList then (k, v) :: (k', v') :: rest
      else if k = k' then (k, v) :: rest
      else (k', v') :: insert k v rest

/-- The operation `QMap::keys`. -/
def keys {α : Type} (m : QMap α) : List String :=
  m.map Prod.fst

/-- The lookup `QMap::value(key)`, `none` for an absent key. -/
def find {α : Type} (m : QMap α) (k : String) : Option α :=
  (List.find? (fun e => e.1 == k) m).map Prod.snd

end QMap

/-- The type `QVariantMap` of Qt. -/
abbrev QVariantMap := QMap QVariant

/-- The read `args[key]` on a constant map: a default-constructed (invalid)
variant for an absent key. -/
def QVariantMap.get (args : QVariantMap) (key : String) : QVariant :=
  (QMap.find args key).getD QVariant.Invalid

/-- The `int` of the platform: 32 bits, two's complement. -/
def wrapInt32 (n : Int) : Int :=
  (n + 2147483648) % 4294967296 - 2147483648

/-! ## The codes of `globals.h`

The header is not among the sources. A `switch` over a code only compiles when
its case labels are pairwise different, so a received `int` is decoded into the
label it equals, or into `Unknown` when it equals none. -/

/-- The error codes `errorOccurred` switches over. -/
inductive ErrorCode where
  | InitError
  | LockError
  | DiskSpaceError
  | FetchError
  | CommitError
  | AuthError
  | UntrustedError
  | Unknown
  deriving DecidableEq, Repr

/-- The phase codes `workerEvent` switches over. -/
inductive WorkerEvent where
  | CacheUpdateStarted
  | CacheUpdateFinished
  | PackageDownloadStarted
  | PackageDownloadFinished
  | CommitChangesStarted
  | CommitChangesFinished
  | Unknown
  deriving DecidableEq, Repr

/-- The question codes: `questionOccurred` compares with `InstallUntrusted` only. -/
inductive WorkerQuestion where
  | InstallUntrusted
  | Unknown
  deriving DecidableEq, Repr

namespace KMessageBox

/-- The result of `KMessageBox::warningYesNoList`, as far as the client
distinguishes it. -/
inductive ButtonCode where
  | Yes
  | No
  | Other
  deriving DecidableEq, Repr

end KMessageBox

namespace KDialog

/-- The dialog buttons the client asks for with `setButtons`. -/
inductive ButtonCode where
  | Cancel
  | Details
  | Close
  deriving DecidableEq, Repr

end KDialog

/-- The progress bar of the dialog, with the range rules of `QProgressBar`. -/
structure QProgressBar where
  minimum : Int
  maximum : Int
  value : Int
  deriving DecidableEq, Repr

namespace QProgressBar

/-- The method `QProgressBar::setMaximum`: the range becomes
`minimum .. max minimum maximum`, and a value that falls outside is reset to
`minimum - 1`. -/
def setMaximum (b : QProgressBar) (maximum : Int) : QProgressBar :=
  if maximum = b.maximum then b
  else
    let top := max b.minimum maximum
    { b with maximum := top,
             value := if b.value < b.minimum - 1 ∨ b.value > top then b.minimum - 1
                      else b.value }

/-- The method `QProgressBar::setValue`: a value outside the range is ignored,
unless the range is `0 .. 0` (busy indicator). -/
def setValue (b : QProgressBar) (value : Int) : QProgressBar :=
  if (value > b.maximum ∨ value < b.minimum) ∧ (b.maximum ≠ 0 ∨ b.minimum ≠ 0) then b
  else { b with value := value }

end QProgressBar

/-- A text of the details widget: either the fixed text "Unknown" or a
quantity formatted by the locale. -/
inductive DetailText where
  | Empty
  | Unknown
  | Duration (milliseconds : Int)
  | ByteRate (bytesPerSecond : Int)
  deriving DecidableEq, Repr

/-- A request the client sends to the worker over the bus. -/
inductive WorkerCall where
  | commitChanges (instructionList : QVariantMap)
  | updateCache
  | cancelDownload
  | answerWorkerQuestion (response : QVariantMap)
  deriving DecidableEq, Repr

/-- A message box raised with `KMessageBox::sorry(0, text, title)`. -/
structure ErrorMessage where
  text : String
  title : String
  deriving DecidableEq, Repr

/-- The values `QApt::Package::ToInstall` and `QApt::Package::ToRemove` of
`package.h`, which is not among the sources. -/
structure PackageFlags where
  ToInstall : Int
  ToRemove : Int
  deriving DecidableEq, Repr

/-! ## QAptBatch -/

/-- A question dialog shown with `KMessageBox::warningYesNoList`. -/
structure QuestionDialog where
  text : String
  items : List String
  title : String
  deriving DecidableEq, Repr

/-- The batch client. `m_mode` and `m_packages` are the members of the class;
the `conn…` fields count the signal-to-slot connections made with `connect`
(Qt keeps one per call and `disconnect` drops them all); the dialog fields hold
what the client last asked of its widgets; `workerCalls`, `messages` and
`questions` list, oldest first, the requests sent to the worker and the message
boxes shown. -/
structure QAptBatch where
  m_mode : String
  m_packages : List String
  connErrorOccurred : Nat
  connWorkerStarted : Nat
  connWorkerEvent : Nat
  connWorkerFinished : Nat
  connServiceOwnerChanged : Nat
  connQuestionOccurred : Nat
  connDownloadProgress : Nat
  connCommitProgress : Nat
  connCancelDownload : Nat
  windowTitle : String
  labelText : String
  progressBar : QProgressBar
  buttons : List KDialog.ButtonCode
  allowCancel : Bool
  autoClose : Bool
  minimumDuration : Int
  mainWindow : Option Int
  visible : Bool
  closed : Bool
  detailsVisible : Bool
  timeText : DetailText
  speedText : DetailText
  workerCalls : List WorkerCall
  messages : List ErrorMessage
  questions : List QuestionDialog
  deriving DecidableEq, Repr

namespace QAptBatch

/-- The plural choice of `i18ncp`. -/
def i18ncp (singular plural : String) (n : Nat) : String :=
  if n = 1 then singular else plural

/-- The call `show()`. -/
def «show» (s : QAptBatch) : QAptBatch :=
  { s with visible := true }

/-- The call `close()`: the dialog is hidden and marked closed. -/
def close (s : QAptBatch) : QAptBatch :=
  { s with visible := false, closed := true }

/-- The instruction list built by the loop of `commitChanges`. -/
def instructionList (packages : List String) (mode : Int) : QVariantMap :=
  packages.foldl (fun m package => QMap.insert package (QVariant.Integer mode) m) []

/-- The method `QAptBatch::commitChanges`. -/
def commitChanges (s : QAptBatch) (mode : Int) : QAptBatch :=
  { s with workerCalls :=
      s.workerCalls ++ [WorkerCall.commitChanges (instructionList s.m_packages mode)] }

/-- The constructor `QAptBatch::QAptBatch(mode, packages, winId)`. -/
def construct (flags : PackageFlags) (mode : String) (packages : List String) (winId : Int) :
    QAptBatch :=
  let s0 : QAptBatch :=
    { m_mode := mode, m_packages := packages,
      connErrorOccurred := 1, connWorkerStarted := 1, connWorkerEvent := 1,
      connWorkerFinished := 1, connServiceOwnerChanged := 0, connQuestionOccurred := 0,
      connDownloadProgress := 0, connCommitProgress := 0, connCancelDownload := 0,
      windowTitle := "", labelText := "Waiting for authorization",
      progressBar := (QProgressBar.mk 0 100 (-1)).setMaximum 0,
      buttons := [KDialog.ButtonCode.Cancel], allowCancel := true, autoClose := true,
      minimumDuration := 10000, mainWindow := none, visible := false, closed := false,
      detailsVisible := false, timeText := DetailText.Empty, speedText := DetailText.Empty,
      workerCalls := [], messages := [], questions := [] }
  let s1 :=
    if mode = "install" then s0.commitChanges flags.ToInstall
    else if mode = "uninstall" then s0.commitChanges flags.ToRemove
    else if mode = "update" then { s0 with workerCalls := s0.workerCalls ++ [WorkerCall.updateCache] }
    else s0
  let s2 := if winId ≠ 0 then { s1 with mainWindow := some winId } else s1
  { s2 with autoClose := false }

/-- The slot `QAptBatch::workerStarted`. -/
def workerStarted (s : QAptBatch) : QAptBatch :=
  { s with progressBar := s.progressBar.setMaximum 100,
           connServiceOwnerChanged := s.connServiceOwnerChanged + 1,
           connQuestionOccurred := s.connQuestionOccurred + 1,
           connDownloadProgress := s.connDownloadProgress + 1,
           connCommitProgress := s.connCommitProgress + 1 }

/-- The slot `QAptBatch::workerFinished`. -/
def workerFinished (s : QAptBatch) (_success : Bool) : QAptBatch :=
  { s with connServiceOwnerChanged := 0, connDownloadProgress := 0, connCommitProgress := 0 }

/-- The method `QAptBatch::raiseErrorMessage`. -/
def raiseErrorMessage (s : QAptBatch) (text title : String) : QAptBatch :=
  close (workerFinished { s with messages := s.messages ++ [ErrorMessage.mk text title] } false)

/-- The title `errorOccurred` gives to the message of an error code; `none` for
a code outside the `switch`. -/
def errorTitle : ErrorCode → Option String
  | .InitError => some "Initialization error"
  | .LockError => some "Unable to obtain package system lock"
  | .DiskSpaceError => some "Low disk space"
  | .FetchError => some "Download failed"
  | .CommitError => some "Commit error"
  | .AuthError => some "Authentication error"
  | .UntrustedError => some "Untrusted Packages"
  | .Unknown => none

/-- The text `errorOccurred` gives to the message of an error code. -/
def errorText (code : ErrorCode) (args : QVariantMap) : String :=
  match code with
  | .InitError =>
      "The package system could not be initialized, your configuration may be broken."
  | .LockError =>
      "Another application seems to be using the package system at this time. You must close all other package managers before you will be able to install or remove any packages."
  | .DiskSpaceError =>
      let drive := (args.get "DirectoryString").toString
      "You do not have enough disk space in the directory at " ++ drive
        ++ " to continue with this operation."
  | .FetchError =>
      let failedItem := (args.get "FailedItem").toString
      let errorText := (args.get "ErrorText").toString
      "Failed to download " ++ failedItem ++ "\n" ++ errorText
  | .CommitError =>
      let failedItem := (args.get "FailedItem").toString
      let errorText := (args.get "ErrorText").toString
      let text := "An error occurred while committing changes."
      if failedItem ≠ "" ∧ errorText ≠ "" then
        text ++ "\n\n" ++ ("File: " ++ failedItem) ++ "\n\n" ++ ("Error: " ++ errorText)
      else text
  | .AuthError =>
      "This operation cannot continue since proper authorization was not provided"
  | .UntrustedError =>
      let untrustedItems := (args.get "UntrustedItems").toStringList
      if untrustedItems.length = 1 then
        "The " ++ untrustedItems.headD ""
          ++ " package has not been verified by its author. Downloading untrusted packages has been disallowed by your current configuration."
      else if untrustedItems.length > 1 then
        let failedItemString :=
          untrustedItems.foldl (fun acc string => acc ++ ("- " ++ string ++ "\n")) ""
        "The following packages have not been verified by their authors:\n"
          ++ failedItemString
          ++ "\nDownloading untrusted packages has been disallowed by your current configuration."
      else ""
  | .Unknown => ""

/-- The slot `QAptBatch::errorOccurred`: every case of the `switch` ends in
`raiseErrorMessage(text, title)`; a code outside the `switch` does nothing. -/
def errorOccurred (s : QAptBatch) (code : ErrorCode) (args : QVariantMap) : QAptBatch :=
  match errorTitle code with
  | some title => s.raiseErrorMessage (errorText code args) title
  | none => s

/-- The slot `QAptBatch::questionOccurred`; `result` is what the question
dialog returns. -/
def questionOccurred (s : QAptBatch) (code : WorkerQuestion) (args : QVariantMap)
    (result : KMessageBox.ButtonCode) : QAptBatch :=
  let s := s.show
  if code = WorkerQuestion.InstallUntrusted then
    let untrustedItems := (args.get "UntrustedItems").toStringList
    let title := "Untrusted Packages"
    let text := i18ncp
      "The following package has not been verified by its author. Installing unverified package represents a security risk, as unverified packages can be a sign of tampering. Do you wish to continue?"
      "The following packages have not been verified by their authors. Installing unverified packages represents a security risk, as unverified packages can be a sign of tampering. Do you wish to continue?"
      untrustedItems.length
    let s := { s with questions := s.questions ++ [QuestionDialog.mk text untrustedItems title] }
    let installUntrusted : Bool :=
      match result with
      | .Yes => true
      | .No => false
      | .Other => false
    let response : QVariantMap :=
      QMap.insert "InstallUntrusted" (QVariant.Boolean installUntrusted) []
    let s := { s with workerCalls := s.workerCalls ++ [WorkerCall.answerWorkerQuestion response] }
    if !installUntrusted then s.close else s
  else s

/-- The slot `QAptBatch::workerEvent`. -/
def workerEvent (s : QAptBatch) (code : WorkerEvent) : QAptBatch :=
  match code with
  | .CacheUpdateStarted =>
      «show» { s with connCancelDownload := s.connCancelDownload + 1,
                      windowTitle := "Refreshing Package Information",
                      labelText := "Checking for new, removed or upgradeable packages",
                      buttons := [KDialog.ButtonCode.Cancel, KDialog.ButtonCode.Details] }
  | .CacheUpdateFinished =>
      { s with labelText := "Package information successfully refreshed",
               connCancelDownload := 0,
               progressBar := s.progressBar.setValue 100,
               detailsVisible := false,
               buttons := [KDialog.ButtonCode.Close] }
  | .PackageDownloadStarted =>
      «show» { s with connCancelDownload := s.connCancelDownload + 1,
                      windowTitle := "Downloading",
                      labelText := i18ncp "Downloading package file" "Downloading package files"
                        s.m_packages.length,
                      buttons := [KDialog.ButtonCode.Cancel, KDialog.ButtonCode.Details] }
  | .PackageDownloadFinished =>
      { s with allowCancel := false, connCancelDownload := 0 }
  | .CommitChangesStarted =>
      «show» { s with windowTitle := "Installing Packages",
                      detailsVisible := false,
                      buttons := [KDialog.ButtonCode.Cancel],
                      allowCancel := false }
  | .CommitChangesFinished =>
      let s :=
        if s.m_mode = "install" then
          { s with windowTitle := "Installation Complete",
                   labelText := i18ncp "Package successfully installed"
                     "Packages successfully installed" s.m_packages.length }
        else if s.m_mode = "uninstall" then
          { s with windowTitle := "Removal Complete",
                   labelText := i18ncp "Package successfully uninstalled"
                     "Packages successfully uninstalled" s.m_packages.length }
        else s
      { s with progressBar := s.progressBar.setValue 100 }
  | .Unknown => s

/-- The slot `QAptBatch::serviceOwnerChanged`. -/
def serviceOwnerChanged (s : QAptBatch) (_name oldOwner newOwner : String) : QAptBatch :=
  if oldOwner = "" then s
  else if newOwner = "" then
    s.raiseErrorMessage
      "It appears that the QApt worker has either crashed or disappeared. Please report a bug to the QApt maintainers"
      "Unexpected Error"
  else s

/-- The slot `QAptBatch::updateDownloadProgress`. -/
def updateDownloadProgress (s : QAptBatch) (percentage speed ETA : Int) : QAptBatch :=
  let ETAMilliseconds := wrapInt32 (ETA * 1000)
  let timeRemaining :=
    if ETAMilliseconds > 0 ∧ ETAMilliseconds < 14 * 24 * 60 * 60 then
      DetailText.Duration ETAMilliseconds
    else DetailText.Unknown
  let downloadSpeed :=
    if speed = -1 then DetailText.Unknown else DetailText.ByteRate speed
  { s with progressBar := s.progressBar.setValue percentage,
           timeText := timeRemaining,
           speedText := downloadSpeed }

/-- The slot `QAptBatch::updateCommitProgress`. -/
def updateCommitProgress (s : QAptBatch) (message : String) (percentage : Int) : QAptBatch :=
  { s with progressBar := s.progressBar.setValue percentage, labelText := message }

/-- The slot `cancelDownload` of the worker interface, reached from
`cancelClicked` through the connection the client makes. -/
def cancelDownload (s : QAptBatch) : QAptBatch :=
  { s with workerCalls := s.workerCalls ++ [WorkerCall.cancelDownload] }

/-- A signal that can be emitted towards the client: those of the worker, the
owner change of the bus watcher and the Cancel click of the dialog. The
question carries the answer the user will give in the dialog. -/
inductive Signal where
  | workerStarted
  | workerEvent (code : WorkerEvent)
  | workerFinished (success : Bool)
  | errorOccurred (code : ErrorCode) (args : QVariantMap)
  | questionOccurred (code : WorkerQuestion) (args : QVariantMap)
      (result : KMessageBox.ButtonCode)
  | downloadProgress (percentage speed ETA : Int)
  | commitProgress (message : String) (percentage : Int)
  | serviceOwnerChanged (name oldOwner newOwner : String)
  | cancelClicked
  deriving DecidableEq, Repr

/-- Emission of a signal over `n` connections: the slot runs once per
connection, and a connection dropped by an earlier run is skipped. -/
def emit (conn : QAptBatch → Nat) (slot : QAptBatch → QAptBatch) :
    Nat → QAptBatch → QAptBatch
  | 0, s => s
  | n + 1, s => emit conn slot n (if conn s = 0 then s else slot s)

/-- Delivery of one signal to the client through the connections it holds. -/
def deliver (s : QAptBatch) : Signal → QAptBatch
  | .workerStarted => emit (·.connWorkerStarted) workerStarted s.connWorkerStarted s
  | .workerEvent code => emit (·.connWorkerEvent) (workerEvent · code) s.connWorkerEvent s
  | .workerFinished success =>
      emit (·.connWorkerFinished) (workerFinished · success) s.connWorkerFinished s
  | .errorOccurred code args =>
      emit (·.connErrorOccurred) (errorOccurred · code args) s.connErrorOccurred s
  | .questionOccurred code args result =>
      emit (·.connQuestionOccurred) (questionOccurred · code args result)
        s.connQuestionOccurred s
  | .downloadProgress percentage speed ETA =>
      emit (·.connDownloadProgress) (updateDownloadProgress · percentage speed ETA)
        s.connDownloadProgress s
  | .commitProgress message percentage =>
      emit (·.connCommitProgress) (updateCommitProgress · message percentage)
        s.connCommitProgress s
  | .serviceOwnerChanged name oldOwner newOwner =>
      emit (·.connServiceOwnerChanged) (serviceOwnerChanged · name oldOwner newOwner)
        s.connServiceOwnerChanged s
  | .cancelClicked => emit (·.connCancelDownload) cancelDownload s.connCancelDownload s

/-- Delivery of a sequence of signals, first to last. -/
def deliverAll (s : QAptBatch) (signals : List Signal) : QAptBatch :=
  signals.foldl deliver s

/-- The commit-phase events: commitProgress and the phase codes
CommitChangesStarted and CommitChangesFinished. -/
def Signal.isCommitPhase : Signal → Bool
  | Signal.commitProgress _ _ => true
  | Signal.workerEvent WorkerEvent.CommitChangesStarted => true
  | Signal.workerEvent WorkerEvent.CommitChangesFinished => true
  | _ => false

/-- The answers the client has submitted with `answerWorkerQuestion`, oldest
first. -/
def answers (s : QAptBatch) : List QVariantMap :=
  s.workerCalls.filterMap fun call =>
    match call with
    | WorkerCall.answerWorkerQuestion response => some response
    | _ => none

/-- The message `errorOccurred` raises for a code and its arguments; `none`
for a code outside the `switch`. -/
def errorMessage (code : ErrorCode) (args : QVariantMap) : Option ErrorMessage :=
  (errorTitle code).map (ErrorMessage.mk (errorText code args))

/-- A click on Cancel is rejected: delivering it changes nothing, in the client
or towards the worker. -/
def CancelRejected (s : QAptBatch) : Prop :=
  s.deliver Signal.cancelClicked = s

instance (s : QAptBatch) : Decidable (CancelRejected s) := by
  unfold CancelRejected; infer_instance

/-- A click on Cancel reaches the worker: delivering it adds a `cancelDownload`
request. -/
def CancelReaches (s : QAptBatch) : Prop :=
  s.workerCalls.count WorkerCall.cancelDownload
    < (s.deliver Signal.cancelClicked).workerCalls.count WorkerCall.cancelDownload

instance (s : QAptBatch) : Decidable (CancelReaches s) := by
  unfold CancelReaches; infer_instance

/-- After the phase codes `codes` the transaction is in a download phase: a
`PackageDownloadStarted` or `CacheUpdateStarted` was received and its
`Finished` code has not followed. -/
def InDownloadPhase (codes : List WorkerEvent) : Prop :=
  ∃ pre post,
    (codes = pre ++ WorkerEvent.PackageDownloadStarted :: post
        ∧ WorkerEvent.PackageDownloadFinished ∉ post) ∨
    (codes = pre ++ WorkerEvent.CacheUpdateStarted :: post
        ∧ WorkerEvent.CacheUpdateFinished ∉ post)

/-- After the phase codes `codes` no download phase is open: no `Started` code
was received, or a `PackageDownloadFinished` or `CacheUpdateFinished` came
after the last one. -/
def DownloadClosed (codes : List WorkerEvent) : Prop :=
  (WorkerEvent.PackageDownloadStarted ∉ codes ∧ WorkerEvent.CacheUpdateStarted ∉ codes) ∨
  ∃ pre fin post, codes = pre ++ fin :: post
    ∧ (fin = WorkerEvent.PackageDownloadFinished ∨ fin = WorkerEvent.CacheUpdateFinished)
    ∧ WorkerEvent.PackageDownloadStarted ∉ post ∧ WorkerEvent.CacheUpdateStarted ∉ post

/-- The state of the client after a sequence of phase codes. -/
def afterPhases (s : QAptBatch) (codes : List WorkerEvent) : QAptBatch :=
  s.deliverAll (codes.map Signal.workerEvent)

/-- Flag values for the worked examples. -/
def exampleFlags : PackageFlags :=
  { ToInstall := 2, ToRemove := 64 }

/-- A client installing one package, as built by the constructor. -/
def exampleClient : QAptBatch :=
  construct exampleFlags "install" ["pkgA"] 0

/-- The example client once the worker has started. -/
def startedClient : QAptBatch :=
  exampleClient.deliver Signal.workerStarted

/-- The example client after a download that was started and, without a
`PackageDownloadFinished`, followed by the start of the commit. -/
def commitDuringDownload : QAptBatch :=
  exampleClient.afterPhases
    [WorkerEvent.PackageDownloadStarted, WorkerEvent.CommitChangesStarted]

/-- The arguments of the question of scenario E. -/
def untrustedArgs : QVariantMap :=
  [("UntrustedItems", QVariant.StrList ["pkgX", "pkgY"])]

/-- The started client after the user declined to install untrusted packages. -/
def declinedClient : QAptBatch :=
  startedClient.deliver
    (Signal.questionOccurred WorkerQuestion.InstallUntrusted untrustedArgs
      KMessageBox.ButtonCode.No)

/-- The percent carried by a progress event (downloadProgress or
commitProgress); `none` for any other signal. -/
def Signal.progressPercent : Signal → Option Int
  | Signal.downloadProgress percentage _ _ => some percentage
  | Signal.commitProgress _ percentage => some percentage
  | _ => none

/-- The progress and liveness events: downloadProgress, commitProgress and
serviceOwnerChanged. -/
def Signal.isProgressOrLiveness : Signal → Bool
  | Signal.downloadProgress _ _ _ => true
  | Signal.commitProgress _ _ => true
  | Signal.serviceOwnerChanged _ _ _ => true
  | _ => false

/-- The client is in a phase of a running transaction: subscribed once to both
progress signals, its progress bar ranging over 0..100, as `workerStarted`
leaves a newly built client. -/
def InPhase (s : QAptBatch) : Prop :=
  s.progressBar.minimum = 0 ∧ s.progressBar.maximum = 100 ∧
    s.connDownloadProgress = 1 ∧ s.connCommitProgress = 1

instance (s : QAptBatch) : Decidable (InPhase s) := by
  unfold InPhase; infer_instance

end QAptBatch

/-! ## Text functions of Qt

For the text-processing code a `QString` is the list of its characters. -/

/-- A `QString`, as the list of its characters. -/
abbrev QString := List Char

namespace QString

/-- The search `QString::indexOf(ch)`: the position of the first occurrence,
or -1 when there is none. -/
def indexOf : QString → Char → Int
  | [], _ => -1
  | c :: cs, ch =>
      if c = ch then 0
      else if indexOf cs ch < 0 then -1 else indexOf cs ch + 1

/-- The substring `QString::left(n)`: the first `n` characters, and the whole
string when `n` is negative or not smaller than its size. -/
def left (s : QString) (n : Int) : QString :=
  if n < 0 ∨ n ≥ s.length then s else s.take n.toNat

/-- The test `QString::startsWith`. -/
def startsWith (s t : QString) : Bool :=
  t.isPrefixOf s

/-- The division `QString::split(sep)`, empty parts kept: a string without
separator is its own single part. -/
def split (sep : Char) : QString → List QString
  | [] => [[]]
  | c :: cs =>
      if c = sep then [] :: split sep cs
      else
        match split sep cs with
        | [] => [[c]]
        | part :: parts => (c :: part) :: parts

/-- The test `QChar::isSpace` on the Latin-1 range. -/
def isSpace (c : Char) : Bool :=
  (9 ≤ c.toNat ∧ c.toNat ≤ 13) ∨ c.toNat = 32 ∨ c.toNat = 133 ∨ c.toNat = 160

/-- The test for a decimal digit `0`..`9`. -/
def isDigit (c : Char) : Bool :=
  48 ≤ c.toNat ∧ c.toNat ≤ 57

/-- The string without its leading and trailing white space. -/
def trimmed (s : QString) : QString :=
  ((s.dropWhile isSpace).reverse.dropWhile isSpace).reverse

/-- The number a string of decimal digits denotes. -/
def digitsValue (digits : QString) : Nat :=
  digits.foldl (fun acc c => acc * 10 + (c.toNat - 48)) 0

/-- The conversion `QString::toLongLong()` in base 10, after the Qt
documentation: white space around the number is ignored, a sign may precede
the digits, and the result is 0 when the conversion fails (no digits, any
other character, or a value outside the signed 64-bit range). -/
def toLongLong (s : QString) : Int :=
  let t := trimmed s
  let negative := t.head? = some '-'
  let digits := if t.head? = some '-' ∨ t.head? = some '+' then t.tail else t
  if digits ≠ [] ∧ digits.all isDigit = true then
    let n : Int := if negative then -(digitsValue digits : Int) else (digitsValue digits : Int)
    if -9223372036854775808 ≤ n ∧ n ≤ 9223372036854775807 then n else 0
  else 0

end QString

/-! ## DebFile -/

/-- A `std::string` read as a C string (`c_str()`) and turned into a `QString`
by `QLatin1String`: the characters up to the first NUL. -/
def c_str (s : List Char) : QString :=
  s.takeWhile (fun c => c ≠ Char.ofNat 0)

/-- The archive as the class sees it: whether the control member could be
read, the path, and the fields of the control section (`controlData`). -/
structure DebFile where
  isValid : Bool
  filePath : String
  controlData : List (String × List Char)

namespace DebFile

/-- The lookup `controlData.FindS(tag)`: the value of the field, the empty
string when the section has no such field. -/
def FindS (d : DebFile) (tag : String) : List Char :=
  match d.controlData.find? (fun field => field.1 == tag) with
  | some field => field.2
  | none => []

/-- The method `DebFile::longDescription`. -/
def longDescription (d : DebFile) : QString :=
  c_str (d.FindS "Description")

/-- The method `DebFile::shortDescription`. -/
def shortDescription (d : DebFile) : QString :=
  let longDesc := d.longDescription
  QString.left longDesc (QString.indexOf longDesc '\n')

/-- The method `DebFile::installedSize`. -/
def installedSize (d : DebFile) : Int :=
  let sizeString := c_str (d.FindS "Installed-Size")
  QString.toLongLong sizeString

/-- The number denoted by decimal digits given most significant first. -/
def numeralValue (digits : List Nat) : Nat :=
  Nat.ofDigits 10 digits.reverse

/-- The decimal numeral with the given digits, most significant first, and a
minus sign when `negative`. -/
def decimalNumeral (negative : Bool) (digits : List Nat) : List Char :=
  (if negative then ['-'] else []) ++ digits.map Nat.digitChar

/-- An archive whose control section holds an installed size of 2048. -/
def exampleDeb : DebFile :=
  { isValid := true, filePath := "/tmp/hello_2.10-1_amd64.deb",
    controlData :=
      [("Package", "hello".toList), ("Installed-Size", "2048".toList),
       ("Description", "GNU hello\n A greeting.".toList)] }

/-- The string `s` is a decimal numeral of the integer `n`: one or more
decimal digits, alone or after a `+` (value `n`) or after a `-` (value `-n`). -/
def Denotes (s : QString) (n : Int) : Prop :=
  ∃ digits : List Nat, digits ≠ [] ∧ (∀ x ∈ digits, x < 10) ∧
    ((s = digits.map Nat.digitChar ∧ n = (numeralValue digits : Int)) ∨
     (s = '+' :: digits.map Nat.digitChar ∧ n = (numeralValue digits : Int)) ∨
     (s = '-' :: digits.map Nat.digitChar ∧ n = -(numeralValue digits : Int)))

/-- The size string `installedSize` converts, white space around it removed. -/
def sizeText (d : DebFile) : QString :=
  QString.trimmed (c_str (d.FindS "Installed-Size"))

/-- An archive whose Installed-Size field is the given text. -/
def debWithSize (size : String) : DebFile :=
  { isValid := true, filePath := "/tmp/x.deb",
    controlData := [("Package", "x".toList), ("Installed-Size", size.toList)] }

end DebFile

/-! ## Changelog -/

/-- An entry of a changelog: the text of the stanza and the version parsed
from its first line. The issue date and the description, which depend on the
date parser of apt, are left out. -/
structure ChangelogEntry where
  data : QString
  version : QString
  deriving DecidableEq, Repr

/-- The list type `ChangelogEntryList`. -/
abbrev ChangelogEntryList := List ChangelogEntry

namespace ChangelogEntryPrivate

/-- The version part of `ChangelogEntryPrivate::parseData`: the first line of
the data is matched against `^source \((.*)\)(.*)$`, the source name taken
literally; the first group is greedy, so it ends before the last `)` of the
line. Without a match the captured text, and so the version, is empty. -/
def parseData (data sourcePackage : QString) : QString :=
  let lines := QString.split '\n' data
  let versionLine := lines.headD []
  match List.isPrefixOf? (sourcePackage ++ [' ', '(']) versionLine with
  | some body =>
      if ')' ∈ body then ((body.reverse.dropWhile (fun c => c ≠ ')')).tail).reverse
      else []
  | none => []

end ChangelogEntryPrivate

namespace ChangelogEntry

/-- The constructor `ChangelogEntry(entryData, sourcePkg)`. -/
def create (entryData sourcePkg : QString) : ChangelogEntry :=
  { data := entryData, version := ChangelogEntryPrivate.parseData entryData sourcePkg }

/-- The accessor `ChangelogEntry::entryText`. -/
def entryText (e : ChangelogEntry) : QString :=
  e.data

end ChangelogEntry

/-- The members of `ChangelogPrivate`. -/
structure Changelog where
  data : QString
  sourcePackage : QString
  deriving DecidableEq, Repr

namespace Changelog

/-- The accessor `Changelog::text`. -/
def text (c : Changelog) : QString :=
  c.data

/-- The state of the first loop of `Changelog::entries`: the list
`entryTexts`, the accesses `entryTexts.at(curIndex)` made so far, each as the
pair of `curIndex` and `entryTexts.count()`, and whether all of them were
within bounds. The loop is followed up to its first access out of bounds. -/
structure EntryTextsRun where
  entryTexts : List QString
  accesses : List (Int × Nat)
  inBounds : Bool
  deriving DecidableEq, Repr

/-- One iteration of the first loop of `Changelog::entries`. -/
def scanLine (sourcePackage : QString) (run : EntryTextsRun) (line : QString) :
    EntryTextsRun :=
  if run.inBounds = false then run
  else if QString.startsWith line sourcePackage then
    { run with entryTexts := run.entryTexts ++ [line ++ ['\n']] }
  else
    let curIndex : Int := (run.entryTexts.length : Int) - 1
    let accesses := run.accesses ++ [(curIndex, run.entryTexts.length)]
    if 0 ≤ curIndex ∧ curIndex < run.entryTexts.length then
      let curEntry := run.entryTexts.getD curIndex.toNat []
      { entryTexts := run.entryTexts.set curIndex.toNat (curEntry ++ (line ++ ['\n'])),
        accesses := accesses, inBounds := true }
    else
      { run with accesses := accesses, inBounds := false }

/-- The first loop of `Changelog::entries`, over the lines of the text. -/
def scan (c : Changelog) : EntryTextsRun :=
  (QString.split '\n' c.data).foldl (scanLine c.sourcePackage)
    { entryTexts := [], accesses := [], inBounds := true }

/-- The list the body of `Changelog::entries` builds in its local `entries`,
one entry per stanza, or `none` when the first loop reads `entryTexts` out of
bounds. -/
def entriesBuilt (c : Changelog) : Option ChangelogEntryList :=
  if (scan c).inBounds then
    some ((scan c).entryTexts.foldl
      (fun entries stanza => entries ++ [ChangelogEntry.create stanza c.sourcePackage]) [])
  else none

/-- The value of a call `Changelog::entries()`. The body runs its two loops
and then reaches the closing brace without a `return` statement: the list it
built is dropped and the call hands no list to its caller (`none`). -/
def entries (c : Changelog) : Option ChangelogEntryList :=
  (entriesBuilt c).bind fun _ => none

/-- The method `Changelog::newEntriesSince`; `compareVersion` stands for
`Package::compareVersion`, which is not among the sources. -/
def newEntriesSince (compareVersion : QString → QString → Int) (c : Changelog)
    (version : QString) : Option ChangelogEntryList :=
  (entries c).map fun all =>
    all.foldl
      (fun newEntries entry =>
        let res := compareVersion entry.version version
        if res > 0 then newEntries ++ [entry] else newEntries)
      []

/-- The first line of the changelog text. -/
def firstLine (c : Changelog) : QString :=
  (QString.split '\n' c.data).headD []

/-- A changelog of the package hello with two entries. -/
def exampleChangelog : Changelog :=
  { data := "hello (2.0) sid\n  * b\n\nhello (1.0) sid\n  * a".toList,
    sourcePackage := "hello".toList }

/-- A stand-in for `Package::compareVersion` on the examples: the order of the
version texts, character by character. -/
def exampleCompare (a b : QString) : Int :=
  if a = b then 0 else if a < b then -1 else 1

/-- A changelog text that does not begin with the source package name. -/
def strayChangelog : Changelog :=
  { data := "  * a\nhello (1.0) sid".toList, sourcePackage := "hello".toList }

end Changelog

namespace Changelog

/-- What the first loop of `Changelog::entries` keeps true once the first line
has opened an entry: no access was out of bounds, `entryTexts` is not empty,
its texts concatenate to `consumed`, each begins with the source package name,
and there are `count` of them. -/
structure EntryTextsRun.Good (sourcePackage : QString) (run : EntryTextsRun)
    (consumed : QString) (count : Nat) : Prop where
  inBounds : run.inBounds = true
  nonempty : run.entryTexts ≠ []
  flatten : run.entryTexts.flatten = consumed
  starts : ∀ e ∈ run.entryTexts, QString.startsWith e sourcePackage = true
  length : run.entryTexts.length = count
  accesses : ∀ a ∈ run.accesses, 0 ≤ a.1 ∧ a.1 < (a.2 : Int)

end Changelog

namespace ChangelogEntry

/-- The first line of a changelog stanza that names source `s`, version `v`
and has `r` after the closing parenthesis. -/
def versionLine (s v r : QString) : QString :=
  s ++ ' ' :: '(' :: (v ++ ')' :: r)

end ChangelogEntry

/-! ## Package -/

namespace Package

/-- The flags of `enum State` that `Package::state` sets. -/
inductive State where
  | ToKeep
  | ToInstall
  | NewInstall
  | ToReInstall
  | ToUpgrade
  | ToDowngrade
  | ToRemove
  | Held
  | Installed
  | Outdated
  | NowBroken
  | InstallBroken
  | ResidualConfig
  | NotInstallable
  | ToPurge
  | IsImportant
  | IsAuto
  | IsGarbage
  | NowPolicyBroken
  | InstallPolicyBroken
  deriving DecidableEq, Repr

/-- The bit each flag occupies in the flag word. The values are those of
`package.h`, which is not among the sources, so the layout is a parameter; the
flags are single bits when the layout is injective. -/
abbrev Layout := State → Nat

/-- The value of a flag: the single bit `1 << position`. -/
def flag (layout : Layout) (f : State) : Nat :=
  1 <<< layout f

/-- The test `word & flag`: the flag is set in the word. -/
def hasFlag (word flagValue : Nat) : Bool :=
  word &&& flagValue != 0

/-- What `Package::state` and `Package::isInstalled` read from the dependency
cache and the package iterator: the answers of the `StateCache` queries, the
`ReInstall` and `Purge` bits of `iFlags`, whether the package has a current
version (`!ver.end()`) and a candidate version, and the package flags. -/
structure CacheState where
  Install : Bool
  ReInstall : Bool
  NewInstall : Bool
  Upgrade : Bool
  Downgrade : Bool
  Delete : Bool
  Purge : Bool
  Keep : Bool
  hasCurrentVer : Bool
  Upgradable : Bool
  hasCandidateVer : Bool
  NowBroken : Bool
  InstBroken : Bool
  importantOrEssential : Bool
  configFiles : Bool
  candidateDownloadable : Bool
  Auto : Bool
  Garbage : Bool
  NowPolicyBroken : Bool
  InstPolicyBroken : Bool
  deriving DecidableEq, Repr

/-- The method `Package::state`. -/
def state (layout : Layout) (c : CacheState) : Nat :=
  let packageState := 0
  let packageState :=
    if c.Install then packageState ||| flag layout State.ToInstall else packageState
  let packageState :=
    if c.ReInstall then packageState ||| flag layout State.ToReInstall
    else if c.NewInstall then packageState ||| flag layout State.NewInstall
    else if c.Upgrade then packageState ||| flag layout State.ToUpgrade
    else if c.Downgrade then packageState ||| flag layout State.ToDowngrade
    else if c.Delete then
      let packageState := packageState ||| flag layout State.ToRemove
      if c.Purge then packageState ||| flag layout State.ToPurge else packageState
    else if c.Keep then packageState ||| flag layout State.ToKeep
    else packageState
  let packageState :=
    if c.hasCurrentVer then
      let packageState := packageState ||| flag layout State.Installed
      let packageState :=
        if c.Upgradable ∧ c.hasCandidateVer then
          let packageState := packageState ||| flag layout State.Outdated
          if c.Keep then packageState ||| flag layout State.Held else packageState
        else packageState
      if c.Downgrade then packageState ||| flag layout State.ToDowngrade else packageState
    else packageState
  let packageState :=
    if c.NowBroken then packageState ||| flag layout State.NowBroken else packageState
  let packageState :=
    if c.InstBroken then packageState ||| flag layout State.InstallBroken else packageState
  let packageState :=
    if c.importantOrEssential then packageState ||| flag layout State.IsImportant
    else packageState
  let packageState :=
    if c.configFiles then packageState ||| flag layout State.ResidualConfig else packageState
  let packageState :=
    if ¬ c.hasCandidateVer ∨ ¬ c.candidateDownloadable then
      packageState ||| flag layout State.NotInstallable
    else packageState
  let packageState :=
    if c.Auto then packageState ||| flag layout State.IsAuto else packageState
  let packageState :=
    if c.Garbage then packageState ||| flag layout State.IsGarbage else packageState
  let packageState :=
    if c.NowPolicyBroken then packageState ||| flag layout State.NowPolicyBroken
    else packageState
  let packageState :=
    if c.InstPolicyBroken then packageState ||| flag layout State.InstallPolicyBroken
    else packageState
  packageState

/-- The method `Package::isInstalled`. -/
def isInstalled (c : CacheState) : Bool :=
  if c.hasCurrentVer then true else false

/-- The number of the given flags that are set in a word. -/
def countSet (layout : Layout) (word : Nat) (flags : List State) : Nat :=
  (flags.filter fun f => hasFlag word (flag layout f)).length

/-- A layout giving each flag a bit of its own, in the order of the
enumeration. -/
def exampleLayout : Layout
  | State.ToKeep => 0
  | State.ToInstall => 1
  | State.NewInstall => 2
  | State.ToReInstall => 3
  | State.ToUpgrade => 4
  | State.ToDowngrade => 5
  | State.ToRemove => 6
  | State.Held => 7
  | State.Installed => 8
  | State.Outdated => 9
  | State.NowBroken => 10
  | State.InstallBroken => 11
  | State.ResidualConfig => 12
  | State.NotInstallable => 13
  | State.ToPurge => 14
  | State.IsImportant => 15
  | State.IsAuto => 16
  | State.IsGarbage => 17
  | State.NowPolicyBroken => 18
  | State.InstallPolicyBroken => 19

/-- An installed package that is upgradable and kept back. -/
def heldPackage : CacheState :=
  { Install := false, ReInstall := false, NewInstall := false, Upgrade := false,
    Downgrade := false, Delete := false, Purge := false, Keep := true,
    hasCurrentVer := true, Upgradable := true, hasCandidateVer := true,
    NowBroken := false, InstBroken := false, importantOrEssential := false,
    configFiles := false, candidateDownloadable := true, Auto := false, Garbage := false,
    NowPolicyBroken := false, InstPolicyBroken := false }

/-- An installed package marked for removal with purge. -/
def purgedPackage : CacheState :=
  { heldPackage with Keep := false, Delete := true, Purge := true, Upgradable := false }

/-- An installed package marked for reinstallation whose candidate is older
than the installed version. -/
def reinstalledDowngrade : CacheState :=
  { heldPackage with Keep := false, Install := true, ReInstall := true, Downgrade := true,
                     Upgradable := false }

end Package

end QApt

/-! ## Theorems -/

namespace QApt

namespace TransactionQueue

theorem mem_iff_count {l : List String} {t : String} : t ∈ l ↔ 1 ≤ l.count t :=
  List.count_pos_iff.symm

theorem not_mem_iff_count {l : List String} {t : String} : t ∉ l ↔ l.count t = 0 :=
  List.count_eq_zero.symm

theorem inv_empty : Inv TransactionQueue.empty where
  occ := by intro t; simp [occurrences, empty]
  st_pending := by intro t h; simp [empty] at h
  st_queue := by intro t h; simp [empty] at h
  st_active := by intro t h; simp [empty] at h
  st_other := by intro t _ _ _; simp [empty]
  fifo := by simp [empty]
  activated_sub := by intro t h; simp [empty] at h
  removed_sub := by intro t h; simp [empty] at h
  activated_nodup := by simp [empty]

theorem inv_addPending {q : TransactionQueue} (h : Inv q) {trans : String}
    (hf : trans ∉ q.ids) : Inv (q.addPending trans) := by
  simp only [ids, List.mem_append, not_or, Option.mem_toList, Option.mem_def] at hf
  obtain ⟨hp, hq, ha, hr⟩ := hf
  refine ⟨?_, ?_, ?_, ?_, ?_, ?_, ?_, ?_, ?_⟩
  · intro t
    have := h.occ t
    simp only [occurrences, addPending, List.count_append, List.count_singleton] at this ⊢
    by_cases e : trans = t
    · subst e
      have h1 := not_mem_iff_count.mp hp
      have h2 := not_mem_iff_count.mp hq
      have h3 := not_mem_iff_count.mp hr
      have h4 : q.m_activeTransaction.toList.count trans = 0 := by
        apply List.count_eq_zero.mpr; simpa using ha
      simp [h1, h2, h3, h4]
    · simp [e]; omega
  · intro t ht
    simp only [addPending, List.mem_append, List.mem_singleton] at ht
    simp only [addPending, Function.update_apply]
    split_ifs with e
    · rfl
    · rcases ht with ht | ht
      · exact h.st_pending t ht
      · exact absurd ht e
  · intro t ht
    simp only [addPending] at ht
    simp only [addPending, Function.update_apply]
    split_ifs with e
    · subst e; exact absurd ht hq
    · exact h.st_queue t ht
  · intro t ht
    simp only [addPending] at ht
    simp only [addPending, Function.update_apply]
    split_ifs with e
    · subst e; exact absurd ht ha
    · exact h.st_active t ht
  · intro t h1 h2 h3
    simp only [addPending, List.mem_append, List.mem_singleton, not_or] at h1 h2 h3
    simp only [addPending, Function.update_apply]
    split_ifs with e
    · exact absurd e h1.2
    · exact h.st_other t h1.1 h2 h3
  · exact h.fifo
  · exact h.activated_sub
  · exact h.removed_sub
  · exact h.activated_nodup

theorem inv_runNextTransaction {q : TransactionQueue} (h : Inv q) :
    Inv q.runNextTransaction := by
  unfold runNextTransaction
  split
  next t rest ha hq =>
    have hocc : ∀ x, q.m_pending.count x + (rest.count x + if t = x then 1 else 0)
        + q.retired.count x ≤ 1 := by
      intro x
      have := h.occ x
      simp only [occurrences, ha, hq, List.count_cons, Option.toList_none, List.count_nil,
        beq_iff_eq] at this
      omega
    have ht_pending : t ∉ q.m_pending := by
      have := hocc t
      rw [not_mem_iff_count]; simp at this; omega
    have ht_rest : t ∉ rest := by
      have := hocc t
      rw [not_mem_iff_count]; simp at this; omega
    have ht_retired : t ∉ q.retired := by
      have := hocc t
      rw [not_mem_iff_count]; simp at this; omega
    refine ⟨?_, ?_, ?_, ?_, ?_, ?_, ?_, ?_, ?_⟩
    · intro x
      have := hocc x
      simp only [occurrences, Option.toList_some, List.count_singleton, beq_iff_eq]
      omega
    · intro x hx
      simp only [Function.update_apply]
      split_ifs with e
      · subst e; exact absurd hx ht_pending
      · exact h.st_pending x hx
    · intro x hx
      simp only at hx
      simp only [Function.update_apply]
      split_ifs with e
      · subst e; exact absurd hx ht_rest
      · exact h.st_queue x (by rw [hq]; exact List.mem_cons_of_mem _ hx)
    · intro x hx
      simp only [Option.some.injEq] at hx
      subst hx
      simp
    · intro x h1 h2 h3
      simp only [Option.some.injEq, ne_eq] at h1 h2 h3
      have e : ¬ x = t := fun e => h3 e.symm
      simp only [Function.update_apply, if_neg e]
      apply h.st_other x h1
      · rw [hq]; simp [e, h2]
      · rw [ha]; simp
    · have := h.fifo
      rw [hq] at this
      simp only [this, List.append_assoc, List.singleton_append]
    · intro x hx
      simp only [List.mem_append, List.mem_singleton] at hx
      rcases hx with hx | hx
      · rcases h.activated_sub x hx with h1 | h1
        · rw [ha] at h1; cases h1
        · exact Or.inr h1
      · subst hx; exact Or.inl rfl
    · exact h.removed_sub
    · refine List.Nodup.append h.activated_nodup (List.nodup_singleton t) ?_
      intro x hx hx2
      simp only [List.mem_singleton] at hx2
      subst hx2
      rcases h.activated_sub x hx with h1 | h1
      · rw [ha] at h1; cases h1
      · exact ht_retired h1
  next => exact h

theorem inv_enqueue {q : TransactionQueue} (h : Inv q) (tid : String) :
    Inv (q.enqueue tid) := by
  unfold enqueue
  split_ifs with hm
  swap
  · exact h
  apply inv_runNextTransaction
  have hc := mem_iff_count.mp hm
  have ho := h.occ tid
  simp only [occurrences] at ho
  have hnq : tid ∉ q.m_queue := by rw [not_mem_iff_count]; omega
  have hna : q.m_activeTransaction ≠ some tid := by
    intro e
    rw [e] at ho
    simp at ho
    omega
  have hnr : tid ∉ q.retired := by rw [not_mem_iff_count]; omega
  have hone : q.m_pending.count tid = 1 := by omega
  refine ⟨?_, ?_, ?_, ?_, ?_, ?_, ?_, ?_, ?_⟩
  · intro x
    have := h.occ x
    simp only [occurrences, List.count_append, List.count_singleton, List.count_erase,
      beq_iff_eq] at this ⊢
    by_cases e : tid = x
    · subst e; simp only [if_true]; omega
    · simp only [if_neg e]; omega
  · intro x hx
    simp only at hx
    have hx1 : x ∈ q.m_pending := List.mem_of_mem_erase hx
    have e : ¬ x = tid := by
      intro e
      subst e
      have := mem_iff_count.mp hx
      rw [List.count_erase] at this
      simp at this
      omega
    simp only [Function.update_apply, if_neg e]
    exact h.st_pending x hx1
  · intro x hx
    simp only [List.mem_append, List.mem_singleton] at hx
    simp only [Function.update_apply]
    split_ifs with e
    · rfl
    · rcases hx with hx | hx
      · exact h.st_queue x hx
      · exact absurd hx e
  · intro x hx
    simp only at hx
    have e : ¬ x = tid := by
      intro e; subst e; exact hna hx
    simp only [Function.update_apply, if_neg e]
    exact h.st_active x hx
  · intro x h1 h2 h3
    simp only [List.mem_append, List.mem_singleton, not_or] at h1 h2 h3
    simp only [Function.update_apply, if_neg h2.2]
    apply h.st_other x _ h2.1 h3
    intro hx
    exact h1 ((List.mem_erase_of_ne h2.2).mpr hx)
  · have hr : tid ∉ q.removed := fun hx => hnr (h.removed_sub tid hx)
    simp only [List.filter_append, h.fifo, List.append_assoc]
    simp [hr]
  · exact h.activated_sub
  · exact h.removed_sub
  · exact h.activated_nodup

theorem inv_remove {q : TransactionQueue} (h : Inv q) (tid : String) :
    Inv (q.remove tid) := by
  unfold remove
  split_ifs with hm
  swap
  · exact h
  have hc := mem_iff_count.mp hm
  have ho := h.occ tid
  simp only [occurrences] at ho
  have hnp : tid ∉ q.m_pending := by rw [not_mem_iff_count]; omega
  have hna : q.m_activeTransaction ≠ some tid := by
    intro e
    rw [e] at ho
    simp at ho
    omega
  have hnr : tid ∉ q.retired := by rw [not_mem_iff_count]; omega
  have hone : q.m_queue.count tid = 1 := by omega
  have hqnd : q.m_queue.Nodup := by
    rw [List.nodup_iff_count_le_one]
    intro x
    have := h.occ x
    simp only [occurrences] at this
    omega
  have hnact : tid ∉ q.activated := by
    intro hx
    rcases h.activated_sub tid hx with h1 | h1
    · exact hna h1
    · exact hnr h1
  refine ⟨?_, ?_, ?_, ?_, ?_, ?_, ?_, ?_, ?_⟩
  · intro x
    have := h.occ x
    simp only [occurrences, List.count_append, List.count_singleton, List.count_erase,
      beq_iff_eq] at this ⊢
    by_cases e : tid = x
    · subst e; simp only [if_true]; omega
    · simp only [if_neg e]; omega
  · intro x hx
    simp only at hx
    have e : ¬ x = tid := by
      intro e; subst e; exact hnp hx
    simp only [Function.update_apply, if_neg e]
    exact h.st_pending x hx
  · intro x hx
    simp only at hx
    have hx1 : x ∈ q.m_queue := List.mem_of_mem_erase hx
    have e : ¬ x = tid := by
      intro e
      subst e
      have := mem_iff_count.mp hx
      rw [List.count_erase] at this
      simp at this
      omega
    simp only [Function.update_apply, if_neg e]
    exact h.st_queue x hx1
  · intro x hx
    simp only at hx
    have e : ¬ x = tid := by
      intro e; subst e; exact hna hx
    simp only [Function.update_apply, if_neg e]
    exact h.st_active x hx
  · intro x h1 h2 h3
    simp only at h1 h2 h3
    simp only [Function.update_apply]
    split_ifs with e
    · simp
    · apply h.st_other x h1 _ h3
      intro hx
      exact h2 ((List.mem_erase_of_ne e).mpr hx)
  · have key : List.filter (fun t => decide (t ∉ q.removed ++ [tid])) q.enqueued
        = List.filter (fun t => t != tid)
            (List.filter (fun t => decide (t ∉ q.removed)) q.enqueued) := by
      rw [List.filter_filter]
      apply List.filter_congr
      intro x _
      by_cases e1 : x = tid <;> by_cases e2 : x ∈ q.removed <;> simp [e1, e2]
    show List.filter (fun t => decide (t ∉ q.removed ++ [tid])) q.enqueued
        = q.activated ++ q.m_queue.erase tid
    rw [key, h.fifo, List.filter_append, hqnd.erase_eq_filter]
    congr 1
    rw [List.filter_eq_self]
    intro a ha
    simp only [bne_iff_ne, ne_eq]
    intro e
    subst e
    exact hnact ha
  · intro x hx
    rcases h.activated_sub x hx with h1 | h1
    · exact Or.inl h1
    · exact Or.inr (List.mem_append_left _ h1)
  · intro x hx
    simp only [List.mem_append, List.mem_singleton] at hx ⊢
    rcases hx with hx | hx
    · exact Or.inl (h.removed_sub x hx)
    · exact Or.inr hx
  · exact h.activated_nodup

theorem inv_onTransactionFinished {q : TransactionQueue} (h : Inv q) (exitCode : ExitCode) :
    Inv (q.onTransactionFinished exitCode) := by
  unfold onTransactionFinished
  split
  next => exact h
  next t ha =>
    apply inv_runNextTransaction
    have ho := h.occ t
    simp only [occurrences, ha, Option.toList_some, List.count_singleton, beq_self_eq_true,
      if_true] at ho
    have hnp : t ∉ q.m_pending := by rw [not_mem_iff_count]; omega
    have hnq : t ∉ q.m_queue := by rw [not_mem_iff_count]; omega
    refine ⟨?_, ?_, ?_, ?_, ?_, ?_, ?_, ?_, ?_⟩
    · intro x
      have := h.occ x
      simp only [occurrences, ha, Option.toList_some, Option.toList_none, List.count_nil,
        List.count_append, List.count_singleton, beq_iff_eq] at this ⊢
      omega
    · intro x hx
      simp only at hx
      have e : ¬ x = t := by
        intro e; subst e; exact hnp hx
      simp only [Function.update_apply, if_neg e]
      exact h.st_pending x hx
    · intro x hx
      simp only at hx
      have e : ¬ x = t := by
        intro e; subst e; exact hnq hx
      simp only [Function.update_apply, if_neg e]
      exact h.st_queue x hx
    · intro x hx
      simp at hx
    · intro x h1 h2 _
      simp only at h1 h2
      simp only [Function.update_apply]
      split_ifs with e
      · cases exitCode <;> simp [ExitCode.toState]
      · apply h.st_other x h1 h2
        rw [ha]
        intro e2
        exact e (Option.some.inj e2).symm
    · exact h.fifo
    · intro x hx
      rcases h.activated_sub x hx with h1 | h1
      · rw [ha] at h1
        cases h1
        exact Or.inr (by simp)
      · exact Or.inr (List.mem_append_left _ h1)
    · intro x hx
      exact List.mem_append_left _ (h.removed_sub x hx)
    · exact h.activated_nodup

theorem inv_step {q : TransactionQueue} (h : Inv q) (op : Op) (ha : Admissible q op) :
    Inv (q.step op) := by
  cases op with
  | addPending t => exact inv_addPending h ha
  | enqueue t => exact inv_enqueue h t
  | remove t => exact inv_remove h t
  | onTransactionFinished e => exact inv_onTransactionFinished h e
  | runNextTransaction => exact inv_runNextTransaction h

theorem inv_of_reachable {q : TransactionQueue} (h : Reachable q) : Inv q := by
  induction h with
  | empty => exact inv_empty
  | step op _ ha ih => exact inv_step ih op ha

theorem scenarioA_reachable : Reachable scenarioA :=
  Reachable.step (.enqueue "T2")
    (Reachable.step (.addPending "T2")
      (Reachable.step (.enqueue "T1")
        (Reachable.step (.addPending "T1") Reachable.empty (by decide))
        trivial)
      (by decide))
    trivial

theorem scenarioB_reachable : Reachable scenarioB :=
  Reachable.step (.onTransactionFinished .Failed) scenarioA_reachable trivial

/-- C1: in every queue reachable from the empty one by addPending, enqueue,
remove, onTransactionFinished and runNextTransaction, at most one transaction
is in state Active, and a transaction is in state Active exactly when it is
the one `activeTransaction()` returns. -/
theorem at_most_one_active (q : TransactionQueue) (h : Reachable q) :
    (∀ t₁ t₂, q.state t₁ = some .Active → q.state t₂ = some .Active → t₁ = t₂) ∧
    (∀ t, q.state t = some .Active ↔ q.activeTransaction = some t) := by
  have hi := inv_of_reachable h
  have key : ∀ t, q.state t = some .Active ↔ q.activeTransaction = some t := by
    intro t
    constructor
    · intro hs
      by_contra hne
      by_cases hp : t ∈ q.m_pending
      · have := hi.st_pending t hp
        rw [hs] at this
        cases this
      · by_cases hq : t ∈ q.m_queue
        · have := hi.st_queue t hq
          rw [hs] at this
          cases this
        · exact hi.st_other t hp hq hne hs
    · exact hi.st_active t
  refine ⟨?_, key⟩
  intro t₁ t₂ h₁ h₂
  have e₁ := (key t₁).mp h₁
  have e₂ := (key t₂).mp h₂
  rw [e₁] at e₂
  exact Option.some.inj e₂

theorem at_most_one_active_witness :
    Reachable scenarioA ∧
    ((∀ t₁ t₂, scenarioA.state t₁ = some .Active → scenarioA.state t₂ = some .Active →
        t₁ = t₂) ∧
     (∀ t, scenarioA.state t = some .Active ↔ scenarioA.activeTransaction = some t)) :=
  ⟨scenarioA_reachable, at_most_one_active scenarioA scenarioA_reachable⟩

/-- C3: in every reachable queue, if T1 was enqueued before T2, neither was
removed and T2 has been promoted to Active, then T1 was promoted to Active
before T2; no transaction is promoted twice. -/
theorem fifo_activation (q : TransactionQueue) (h : Reachable q) (T1 T2 : String)
    (henq : [T1, T2].Sublist q.enqueued) (h1 : T1 ∉ q.removed) (h2 : T2 ∉ q.removed)
    (hact : T2 ∈ q.activated) :
    q.activated.Nodup ∧ [T1, T2].Sublist q.activated := by
  have hi := inv_of_reachable h
  refine ⟨hi.activated_nodup, ?_⟩
  have hsub := henq.filter (fun t => decide (t ∉ q.removed))
  rw [hi.fifo] at hsub
  have hf : List.filter (fun t => decide (t ∉ q.removed)) [T1, T2] = [T1, T2] := by
    simp [List.filter, h1, h2]
  rw [hf] at hsub
  have hT2q : T2 ∉ q.m_queue := by
    intro hq
    have ho := hi.occ T2
    have hc := mem_iff_count.mp hq
    simp only [occurrences] at ho
    rcases hi.activated_sub T2 hact with ha | hr
    · rw [ha] at ho
      simp at ho
      omega
    · have := mem_iff_count.mp hr
      omega
  obtain ⟨l₁, l₂, hl, hs₁, hs₂⟩ := List.sublist_append_iff.mp hsub
  have hT2 : T2 ∉ l₂ := fun hm => hT2q (hs₂.subset hm)
  match l₁, hl, hs₁ with
  | [], hl, _ =>
      simp only [List.nil_append] at hl
      subst hl
      exact absurd (by simp) hT2
  | [a], hl, _ =>
      simp only [List.singleton_append, List.cons.injEq] at hl
      obtain ⟨_, hl⟩ := hl
      subst hl
      exact absurd (by simp) hT2
  | [a, b], hl, hs₁ =>
      simp only [List.cons_append, List.nil_append, List.cons.injEq] at hl
      obtain ⟨ha, hb, _⟩ := hl
      subst ha
      subst hb
      exact hs₁
  | a :: b :: c :: r, hl, _ =>
      simp at hl

theorem fifo_activation_witness :
    Reachable scenarioB ∧ ["T1", "T2"].Sublist scenarioB.enqueued ∧
      "T1" ∉ scenarioB.removed ∧ "T2" ∉ scenarioB.removed ∧
      "T2" ∈ scenarioB.activated ∧
      (scenarioB.activated.Nodup ∧ ["T1", "T2"].Sublist scenarioB.activated) :=
  ⟨scenarioB_reachable, by decide, by decide, by decide, by decide,
    fifo_activation scenarioB scenarioB_reachable "T1" "T2" (by decide) (by decide)
      (by decide) (by decide)⟩

end TransactionQueue

namespace QMap

theorem insert_mem {α : Type} (k : String) (v : α) (m : QMap α) (e : String × α) :
    e ∈ insert k v m → e = (k, v) ∨ e ∈ m := by
  induction m with
  | nil => simp [insert]
  | cons hd tl ih =>
    obtain ⟨k', v'⟩ := hd
    unfold insert
    split_ifs with h1 h2
    · intro h
      simp only [List.mem_cons] at h ⊢
      exact h
    · intro h
      simp only [List.mem_cons] at h ⊢
      rcases h with h | h
      · exact Or.inl h
      · exact Or.inr (Or.inr h)
    · intro h
      simp only [List.mem_cons] at h ⊢
      rcases h with h | h
      · exact Or.inr (Or.inl h)
      · rcases ih h with h | h
        · exact Or.inl h
        · exact Or.inr (Or.inr h)

theorem mem_keys_insert {α : Type} (k : String) (v : α) (m : QMap α) (x : String) :
    x ∈ keys (insert k v m) ↔ x = k ∨ x ∈ keys m := by
  induction m with
  | nil => simp [insert, keys]
  | cons hd tl ih =>
    obtain ⟨k', v'⟩ := hd
    unfold insert
    split_ifs with h1 h2
    · simp [keys]
    · subst h2
      simp [keys]
    · have ih' : x ∈ List.map Prod.fst (insert k v tl) ↔ x = k ∨ x ∈ List.map Prod.fst tl := ih
      simp only [keys, List.map_cons, List.mem_cons, ih']
      tauto

theorem sorted_keys_insert {α : Type} (k : String) (v : α) (m : QMap α)
    (h : (keys m).Sorted (· < ·)) : (keys (insert k v m)).Sorted (· < ·) := by
  induction m with
  | nil => simp [insert, keys]
  | cons hd tl ih =>
    obtain ⟨k', v'⟩ := hd
    have hs : (∀ b ∈ keys tl, k' < b) ∧ (keys tl).Sorted (· < ·) := by
      simpa [keys] using h
    unfold insert
    split_ifs with h1 h2
    · have h1' : k < k' := String.lt_iff_toList_lt.mpr h1
      show List.Sorted (· < ·) (k :: k' :: keys tl)
      refine List.sorted_cons.mpr ⟨?_, List.sorted_cons.mpr hs⟩
      intro b hb
      simp only [List.mem_cons] at hb
      rcases hb with hb | hb
      · rw [hb]; exact h1'
      · exact lt_trans h1' (hs.1 b hb)
    · subst h2
      show List.Sorted (· < ·) (k :: keys tl)
      exact List.sorted_cons.mpr hs
    · have h3 : k' < k := by
        rcases lt_trichotomy k k' with h | h | h
        · exact absurd (String.lt_iff_toList_lt.mp h) h1
        · exact absurd h h2
        · exact h
      show List.Sorted (· < ·) (k' :: keys (insert k v tl))
      refine List.sorted_cons.mpr ⟨?_, ih hs.2⟩
      intro b hb
      rcases (mem_keys_insert k v tl b).mp hb with hb | hb
      · rw [hb]; exact h3
      · exact hs.1 b hb

theorem find_of_const {α : Type} (m : QMap α) (v : α) (k : String)
    (hv : ∀ e ∈ m, e.2 = v) (hk : k ∈ keys m) : find m k = some v := by
  induction m with
  | nil => simp [keys] at hk
  | cons hd tl ih =>
    obtain ⟨k', v'⟩ := hd
    have hv' : v' = v := hv (k', v') (by simp)
    subst hv'
    by_cases e : k' = k
    · simp [find, List.find?_cons, e]
    · have hk' : k ∈ keys tl := by
        simp only [keys, List.map_cons, List.mem_cons] at hk
        rcases hk with hk | hk
        · exact absurd hk.symm e
        · exact hk
      have := ih (fun x hx => hv x (List.mem_cons_of_mem _ hx)) hk'
      simpa [find, List.find?_cons, e] using this

theorem eq_map_keys_of_const {α : Type} (m : QMap α) (v : α)
    (hv : ∀ e ∈ m, e.2 = v) : m = (keys m).map (fun k => (k, v)) := by
  induction m with
  | nil => rfl
  | cons hd tl ih =>
    obtain ⟨k', v'⟩ := hd
    have hv' : v' = v := hv (k', v') (by simp)
    subst hv'
    have := ih (fun x hx => hv x (List.mem_cons_of_mem _ hx))
    simp only [keys, List.map_cons, List.cons.injEq, true_and]
    exact this

end QMap

namespace QAptBatch

theorem instructionList_fold (packages : List String) (mode : Int) (acc : QVariantMap)
    (hs : (QMap.keys acc).Sorted (· < ·)) (hv : ∀ e ∈ acc, e.2 = QVariant.Integer mode) :
    let m := packages.foldl (fun m package => QMap.insert package (QVariant.Integer mode) m) acc
    (QMap.keys m).Sorted (· < ·) ∧ (∀ e ∈ m, e.2 = QVariant.Integer mode) ∧
      ∀ k, k ∈ QMap.keys m ↔ k ∈ packages ∨ k ∈ QMap.keys acc := by
  induction packages generalizing acc with
  | nil => exact ⟨hs, hv, fun k => by simp⟩
  | cons p ps ih =>
    have hs' := QMap.sorted_keys_insert p (QVariant.Integer mode) acc hs
    have hv' : ∀ e ∈ QMap.insert p (QVariant.Integer mode) acc, e.2 = QVariant.Integer mode := by
      intro e he
      rcases QMap.insert_mem p _ acc e he with h | h
      · rw [h]
      · exact hv e h
    obtain ⟨h1, h2, h3⟩ := ih (QMap.insert p (QVariant.Integer mode) acc) hs' hv'
    refine ⟨h1, h2, ?_⟩
    intro k
    have := h3 k
    simp only [List.foldl_cons, List.mem_cons]
    rw [this, QMap.mem_keys_insert]
    tauto

theorem instructionList_spec (packages : List String) (mode : Int) :
    (QMap.keys (instructionList packages mode)).Sorted (· < ·) ∧
      (∀ e ∈ instructionList packages mode, e.2 = QVariant.Integer mode) ∧
      ∀ k, k ∈ QMap.keys (instructionList packages mode) ↔ k ∈ packages := by
  have := instructionList_fold packages mode [] (by simp [QMap.keys]) (by simp)
  simpa [instructionList, QMap.keys] using this

theorem instructionList_congr (packages packages' : List String) (mode : Int)
    (h : ∀ k, k ∈ packages ↔ k ∈ packages') :
    instructionList packages mode = instructionList packages' mode := by
  obtain ⟨s1, v1, k1⟩ := instructionList_spec packages mode
  obtain ⟨s2, v2, k2⟩ := instructionList_spec packages' mode
  rw [QMap.eq_map_keys_of_const _ _ v1, QMap.eq_map_keys_of_const _ _ v2]
  congr 1
  apply List.eq_of_perm_of_sorted _ s1 s2
  rw [List.perm_ext_iff_of_nodup s1.nodup s2.nodup]
  intro a
  rw [k1, k2, h]

/-- C10: constructing the batch client sends the worker the request its mode
determines. Mode "install" sends one commitChanges whose map has exactly the
listed names as keys, each once, each mapped to ToInstall; "uninstall" sends
the same with ToRemove; "update" sends one updateCache and no commitChanges;
any other mode sends nothing. The map depends only on the set of names: lists
with the same members (in any order, with any repetitions) give the same map. -/
theorem construct_request (flags : PackageFlags) (mode : String) (packages : List String)
    (winId : Int) :
    (construct flags mode packages winId).workerCalls =
        (if mode = "install" then
            [WorkerCall.commitChanges (instructionList packages flags.ToInstall)]
         else if mode = "uninstall" then
            [WorkerCall.commitChanges (instructionList packages flags.ToRemove)]
         else if mode = "update" then [WorkerCall.updateCache]
         else []) ∧
      (∀ m : Int,
        (QMap.keys (instructionList packages m)).Nodup ∧
        (∀ k, k ∈ QMap.keys (instructionList packages m) ↔ k ∈ packages) ∧
        (∀ k, k ∈ packages →
          QMap.find (instructionList packages m) k = some (QVariant.Integer m)) ∧
        (∀ k, k ∉ packages → QMap.find (instructionList packages m) k = none) ∧
        (∀ packages' : List String, (∀ k, k ∈ packages ↔ k ∈ packages') →
          instructionList packages m = instructionList packages' m)) := by
  constructor
  · unfold construct
    by_cases h1 : mode = "install"
    · simp [h1, commitChanges]
      split_ifs <;> rfl
    · by_cases h2 : mode = "uninstall"
      · simp [h2, commitChanges]
        split_ifs <;> rfl
      · by_cases h3 : mode = "update"
        · simp [h3]
          split_ifs <;> rfl
        · simp [h1, h2, h3]
          split_ifs <;> rfl
  · intro m
    obtain ⟨hs, hv, hk⟩ := instructionList_spec packages m
    refine ⟨hs.nodup, hk, ?_, ?_, ?_⟩
    · intro k hkp
      exact QMap.find_of_const _ _ k hv ((hk k).mpr hkp)
    · intro k hkp
      have hnk : k ∉ QMap.keys (instructionList packages m) := fun h => hkp ((hk k).mp h)
      simp only [QMap.find, Option.map_eq_none', List.find?_eq_none]
      intro e he
      simp only [beq_iff_eq]
      intro hek
      apply hnk
      rw [← hek]
      exact List.mem_map_of_mem Prod.fst he
    · intro packages' h
      exact instructionList_congr packages packages' m h

theorem construct_request_witness :
    (∀ k, k ∈ ["pkgB", "pkgA", "pkgB"] ↔ k ∈ ["pkgA", "pkgB"]) ∧
    "pkgA" ∈ ["pkgB", "pkgA", "pkgB"] ∧
    "pkgC" ∉ ["pkgB", "pkgA", "pkgB"] ∧
    instructionList ["pkgB", "pkgA", "pkgB"] 2 = instructionList ["pkgA", "pkgB"] 2 ∧
    QMap.find (instructionList ["pkgB", "pkgA", "pkgB"] 2) "pkgA" = some (QVariant.Integer 2) ∧
    QMap.find (instructionList ["pkgB", "pkgA", "pkgB"] 2) "pkgC" = none :=
  have hmem : ∀ k, k ∈ ["pkgB", "pkgA", "pkgB"] ↔ k ∈ ["pkgA", "pkgB"] := by
    intro k
    simp only [List.mem_cons, List.mem_singleton, List.not_mem_nil, or_false]
    tauto
  have w := (construct_request exampleFlags "install" ["pkgB", "pkgA", "pkgB"] 0).2 2
  ⟨hmem, by decide, by decide, w.2.2.2.2 ["pkgA", "pkgB"] hmem, w.2.2.1 "pkgA" (by decide),
    w.2.2.2.1 "pkgC" (by decide)⟩

theorem emit_of_conn_zero (conn : QAptBatch → Nat) (slot : QAptBatch → QAptBatch) (n : Nat)
    (s : QAptBatch) (h : conn s = 0) : emit conn slot n s = s := by
  induction n with
  | zero => rfl
  | succ n ih => simp [emit, h, ih]

theorem emit_of_fixed (conn : QAptBatch → Nat) (slot : QAptBatch → QAptBatch) (n : Nat)
    (s : QAptBatch) (h : slot s = s) : emit conn slot n s = s := by
  induction n with
  | zero => rfl
  | succ n ih =>
    simp only [emit]
    split_ifs
    · exact ih
    · rw [h]; exact ih

theorem emit_of_drop (conn : QAptBatch → Nat) (slot : QAptBatch → QAptBatch) (n : Nat)
    (s : QAptBatch) (h0 : 0 < n) (h1 : conn s ≠ 0) (h2 : conn (slot s) = 0) :
    emit conn slot n s = slot s := by
  obtain ⟨m, rfl⟩ : ∃ m, n = m + 1 := ⟨n - 1, by omega⟩
  simp only [emit, if_neg h1]
  exact emit_of_conn_zero conn slot m (slot s) h2

theorem emit_one (conn : QAptBatch → Nat) (slot : QAptBatch → QAptBatch)
    (s : QAptBatch) (h : conn s ≠ 0) : emit conn slot 1 s = slot s := by
  simp [emit, h]

theorem emit_invariant (P : QAptBatch → Prop) (conn : QAptBatch → Nat)
    (slot : QAptBatch → QAptBatch) (hP : ∀ s, P s → P (slot s)) (n : Nat) (s : QAptBatch)
    (h : P s) : P (emit conn slot n s) := by
  induction n generalizing s with
  | zero => exact h
  | succ n ih =>
    simp only [emit]
    split_ifs
    · exact ih s h
    · exact ih (slot s) (hP s h)

theorem deliverAll_cons (s : QAptBatch) (sig : Signal) (sigs : List Signal) :
    s.deliverAll (sig :: sigs) = (s.deliver sig).deliverAll sigs := rfl

theorem deliverAll_append (s : QAptBatch) (l₁ l₂ : List Signal) :
    s.deliverAll (l₁ ++ l₂) = (s.deliverAll l₁).deliverAll l₂ := by
  simp [deliverAll, List.foldl_append]

theorem workerStarted_subscribes (s : QAptBatch) :
    0 < s.workerStarted.connServiceOwnerChanged := by
  simp [workerStarted]

theorem workerFinished_unsubscribes (s : QAptBatch) (success : Bool) :
    (s.workerFinished success).connServiceOwnerChanged = 0 := by
  simp [workerFinished]

/-- C5: while the client is subscribed to owner changes of the worker's bus
name (the subscription is made by workerStarted and dropped by
workerFinished), a serviceOwnerChanged signal raises a fatal error message if
and only if oldOwner is non-empty and newOwner is empty; it then raises exactly
one message, titled "Unexpected Error", and closes the client. When oldOwner is
empty or newOwner is non-empty the client state is unchanged. -/
theorem serviceOwnerChanged_raises_iff (s : QAptBatch) (name oldOwner newOwner : String)
    (h : 0 < s.connServiceOwnerChanged) :
    ((s.deliver (Signal.serviceOwnerChanged name oldOwner newOwner)).messages ≠ s.messages
        ↔ oldOwner ≠ "" ∧ newOwner = "") ∧
    (oldOwner ≠ "" ∧ newOwner = "" →
      ∃ text, (s.deliver (Signal.serviceOwnerChanged name oldOwner newOwner)).messages
          = s.messages ++ [ErrorMessage.mk text "Unexpected Error"] ∧
        (s.deliver (Signal.serviceOwnerChanged name oldOwner newOwner)).closed = true) ∧
    (oldOwner = "" ∨ newOwner ≠ "" →
      s.deliver (Signal.serviceOwnerChanged name oldOwner newOwner) = s) := by
  have hne : s.connServiceOwnerChanged ≠ 0 := by omega
  by_cases ho : oldOwner = ""
  · have hfix : s.deliver (Signal.serviceOwnerChanged name oldOwner newOwner) = s := by
      apply emit_of_fixed
      simp [serviceOwnerChanged, ho]
    rw [hfix]
    simp [ho]
  · by_cases hn : newOwner = ""
    · have hraise : s.deliver (Signal.serviceOwnerChanged name oldOwner newOwner)
          = s.serviceOwnerChanged name oldOwner newOwner := by
        apply emit_of_drop _ _ _ _ h hne
        simp [serviceOwnerChanged, ho, hn, raiseErrorMessage, workerFinished, close]
      rw [hraise]
      simp [serviceOwnerChanged, ho, hn, raiseErrorMessage, workerFinished, close]
    · have hfix : s.deliver (Signal.serviceOwnerChanged name oldOwner newOwner) = s := by
        apply emit_of_fixed
        simp [serviceOwnerChanged, ho, hn]
      rw [hfix]
      simp [ho, hn]

theorem serviceOwnerChanged_raises_iff_witness :
    0 < startedClient.connServiceOwnerChanged ∧
    (((startedClient.deliver (Signal.serviceOwnerChanged "org.kubuntu.qaptworker" ":1.7" "")).messages
          ≠ startedClient.messages ↔ ":1.7" ≠ "" ∧ "" = "") ∧
      (":1.7" ≠ "" ∧ "" = "" →
        ∃ text, (startedClient.deliver
            (Signal.serviceOwnerChanged "org.kubuntu.qaptworker" ":1.7" "")).messages
            = startedClient.messages ++ [ErrorMessage.mk text "Unexpected Error"] ∧
          (startedClient.deliver
            (Signal.serviceOwnerChanged "org.kubuntu.qaptworker" ":1.7" "")).closed = true) ∧
      (":1.7" = "" ∨ "" ≠ "" →
        startedClient.deliver (Signal.serviceOwnerChanged "org.kubuntu.qaptworker" ":1.7" "")
          = startedClient)) :=
  ⟨by decide,
    serviceOwnerChanged_raises_iff startedClient "org.kubuntu.qaptworker" ":1.7" "" (by decide)⟩

theorem errorOccurred_messages (s : QAptBatch) (code : ErrorCode) (args : QVariantMap) :
    (s.errorOccurred code args).messages = s.messages ++ (errorMessage code args).toList ∧
      (s.errorOccurred code args).connErrorOccurred = s.connErrorOccurred := by
  cases code <;>
    simp [errorOccurred, errorMessage, errorTitle, raiseErrorMessage, workerFinished, close]

theorem deliver_errorOccurred (s : QAptBatch) (h : s.connErrorOccurred = 1) (code : ErrorCode)
    (args : QVariantMap) :
    s.deliver (Signal.errorOccurred code args) = s.errorOccurred code args := by
  simp only [deliver, h]
  exact emit_one _ _ s (by simp [h])

theorem deliverAll_errors (errors : List (ErrorCode × QVariantMap)) (s : QAptBatch)
    (h : s.connErrorOccurred = 1) :
    (s.deliverAll (errors.map fun e => Signal.errorOccurred e.1 e.2)).messages
      = s.messages ++ errors.filterMap (fun e => errorMessage e.1 e.2) := by
  induction errors generalizing s with
  | nil => simp [deliverAll]
  | cons e es ih =>
    obtain ⟨hm, hc⟩ := errorOccurred_messages s e.1 e.2
    rw [List.map_cons, deliverAll_cons, deliver_errorOccurred s h, ih _ (by rw [hc, h]), hm]
    cases hmsg : errorMessage e.1 e.2 <;> simp [List.filterMap_cons, hmsg]

/-- C6, as the code has it: every errorOccurred event whose code is one of the
seven known kinds is surfaced, the first and every later one alike. After any
sequence of errorOccurred events the messages raised are those of the events
with a known code, one each and in order of arrival; nothing is collapsed. -/
theorem every_known_error_surfaced (flags : PackageFlags) (mode : String)
    (packages : List String) (winId : Int) (errors : List (ErrorCode × QVariantMap)) :
    ((construct flags mode packages winId).deliverAll
        (errors.map fun e => Signal.errorOccurred e.1 e.2)).messages
      = errors.filterMap (fun e => errorMessage e.1 e.2) := by
  have h : (construct flags mode packages winId).connErrorOccurred = 1 := by
    unfold construct
    simp only
    split_ifs <;> rfl
  have hm : (construct flags mode packages winId).messages = [] := by
    unfold construct
    simp only
    split_ifs <;> rfl
  rw [deliverAll_errors errors _ h, hm, List.nil_append]

/-- C6 fails as stated: a second errorOccurred event, delivered after a first
one was surfaced, raises a message of its own. -/
theorem later_error_surfaced_counterexample :
    (exampleClient.deliver (Signal.errorOccurred ErrorCode.InitError [])).messages.length = 1 ∧
    ((exampleClient.deliver (Signal.errorOccurred ErrorCode.InitError [])).deliver
        (Signal.errorOccurred ErrorCode.LockError [])).messages.length = 2 ∧
    (((exampleClient.deliver (Signal.errorOccurred ErrorCode.InitError [])).deliver
        (Signal.errorOccurred ErrorCode.LockError [])).messages.map ErrorMessage.title)
      = ["Initialization error", "Unable to obtain package system lock"] := by
  refine ⟨by decide, by decide, by decide⟩

theorem workerEvent_connErrorOccurred (s : QAptBatch) (code : WorkerEvent) :
    (s.workerEvent code).connErrorOccurred = s.connErrorOccurred := by
  cases code <;> simp only [workerEvent, «show»]
  split_ifs <;> rfl

theorem questionOccurred_connErrorOccurred (s : QAptBatch) (code : WorkerQuestion)
    (args : QVariantMap) (result : KMessageBox.ButtonCode) :
    (s.questionOccurred code args result).connErrorOccurred = s.connErrorOccurred := by
  cases code <;> cases result <;> simp [questionOccurred, «show», close]

theorem serviceOwnerChanged_connErrorOccurred (s : QAptBatch) (name oldOwner newOwner : String) :
    (s.serviceOwnerChanged name oldOwner newOwner).connErrorOccurred = s.connErrorOccurred := by
  unfold serviceOwnerChanged
  split_ifs <;> simp [raiseErrorMessage, workerFinished, close]

theorem deliver_connErrorOccurred (s : QAptBatch) (sig : Signal) (h : s.connErrorOccurred = 1) :
    (s.deliver sig).connErrorOccurred = 1 := by
  cases sig with
  | workerStarted =>
    exact emit_invariant (fun s => s.connErrorOccurred = 1) _ _ (fun s hs => by
      simpa [workerStarted] using hs) _ s h
  | workerEvent code =>
    exact emit_invariant (fun s => s.connErrorOccurred = 1) _ _ (fun s hs => by
      show (s.workerEvent code).connErrorOccurred = 1
      rw [workerEvent_connErrorOccurred]; exact hs) _ s h
  | workerFinished success =>
    exact emit_invariant (fun s => s.connErrorOccurred = 1) _ _ (fun s hs => by
      simpa [workerFinished] using hs) _ s h
  | errorOccurred code args =>
    exact emit_invariant (fun s => s.connErrorOccurred = 1) _ _ (fun s hs => by
      show (s.errorOccurred code args).connErrorOccurred = 1
      rw [(errorOccurred_messages s code args).2]; exact hs) _ s h
  | questionOccurred code args result =>
    exact emit_invariant (fun s => s.connErrorOccurred = 1) _ _ (fun s hs => by
      show (s.questionOccurred code args result).connErrorOccurred = 1
      rw [questionOccurred_connErrorOccurred]; exact hs) _ s h
  | downloadProgress percentage speed ETA =>
    exact emit_invariant (fun s => s.connErrorOccurred = 1) _ _ (fun s hs => by
      simpa [updateDownloadProgress] using hs) _ s h
  | commitProgress message percentage =>
    exact emit_invariant (fun s => s.connErrorOccurred = 1) _ _ (fun s hs => by
      simpa [updateCommitProgress] using hs) _ s h
  | serviceOwnerChanged name oldOwner newOwner =>
    exact emit_invariant (fun s => s.connErrorOccurred = 1) _ _ (fun s hs => by
      show (s.serviceOwnerChanged name oldOwner newOwner).connErrorOccurred = 1
      rw [serviceOwnerChanged_connErrorOccurred]; exact hs) _ s h
  | cancelClicked =>
    exact emit_invariant (fun s => s.connErrorOccurred = 1) _ _ (fun s hs => by
      simpa [cancelDownload] using hs) _ s h

theorem deliverAll_connErrorOccurred (history : List Signal) (s : QAptBatch)
    (h : s.connErrorOccurred = 1) : (s.deliverAll history).connErrorOccurred = 1 := by
  induction history generalizing s with
  | nil => exact h
  | cons sig sigs ih =>
    rw [deliverAll_cons]
    exact ih _ (deliver_connErrorOccurred s sig h)

theorem errorTitle_injective (code code' : ErrorCode) (title : String)
    (h : errorTitle code = some title) (h' : errorTitle code' = some title) : code' = code := by
  cases code <;> cases code' <;> simp [errorTitle] at h h' <;> first | rfl | (subst h; simp at h')

/-- C7: in every state the client can be in (built by the constructor, then
any signals delivered), an errorOccurred event with one of the seven known
error kinds surfaces exactly one message, whatever the argument map; the title
of the message is the one `errorTitle` gives the kind, the same for every
argument map and state, and no other kind has that title. -/
theorem known_error_surfaces_one_message (flags : PackageFlags) (mode : String)
    (packages : List String) (winId : Int) (history : List Signal) (code : ErrorCode)
    (args : QVariantMap) (hk : code ≠ ErrorCode.Unknown) :
    ∃ title, errorTitle code = some title ∧
      (((construct flags mode packages winId).deliverAll history).deliver
          (Signal.errorOccurred code args)).messages
        = ((construct flags mode packages winId).deliverAll history).messages
            ++ [ErrorMessage.mk (errorText code args) title] ∧
      ∀ code', errorTitle code' = some title → code' = code := by
  have h0 : (construct flags mode packages winId).connErrorOccurred = 1 := by
    unfold construct
    simp only
    split_ifs <;> rfl
  have h := deliverAll_connErrorOccurred history _ h0
  obtain ⟨title, ht⟩ : ∃ title, errorTitle code = some title := by
    cases code <;> simp [errorTitle] at hk ⊢
  refine ⟨title, ht, ?_, fun code' h' => errorTitle_injective code code' title ht h'⟩
  rw [deliver_errorOccurred _ h, (errorOccurred_messages _ code args).1]
  simp [errorMessage, ht]

theorem known_error_surfaces_one_message_witness :
    ErrorCode.FetchError ≠ ErrorCode.Unknown ∧
    ∃ title, errorTitle ErrorCode.FetchError = some title ∧
      (((construct exampleFlags "install" ["pkgA"] 0).deliverAll [Signal.workerStarted]).deliver
          (Signal.errorOccurred ErrorCode.FetchError [])).messages
        = ((construct exampleFlags "install" ["pkgA"] 0).deliverAll [Signal.workerStarted]).messages
            ++ [ErrorMessage.mk (errorText ErrorCode.FetchError []) title] ∧
      ∀ code', errorTitle code' = some title → code' = ErrorCode.FetchError :=
  ⟨by decide,
    known_error_surfaces_one_message exampleFlags "install" ["pkgA"] 0 [Signal.workerStarted]
      ErrorCode.FetchError [] (by decide)⟩

theorem questionOccurred_answers (s : QAptBatch) (code : WorkerQuestion) (args : QVariantMap)
    (result : KMessageBox.ButtonCode) :
    (s.questionOccurred code args result).answers
      = s.answers ++
          (if code = WorkerQuestion.InstallUntrusted then
            [[("InstallUntrusted", QVariant.Boolean (decide (result = KMessageBox.ButtonCode.Yes)))]]
           else []) := by
  cases code <;> cases result <;>
    simp [questionOccurred, «show», close, answers, List.filterMap_append, QMap.insert]

/-- C8, as the code has it: a questionOccurred event the client receives over
its one subscription is answered exactly once when its code is
InstallUntrusted (the answer holds the single key InstallUntrusted, true
exactly for the dialog result Yes), and is not answered at all when its code
is any other. -/
theorem question_answered_iff_install_untrusted (s : QAptBatch)
    (h : s.connQuestionOccurred = 1) (code : WorkerQuestion) (args : QVariantMap)
    (result : KMessageBox.ButtonCode) :
    (s.deliver (Signal.questionOccurred code args result)).answers
      = s.answers ++
          (if code = WorkerQuestion.InstallUntrusted then
            [[("InstallUntrusted", QVariant.Boolean (decide (result = KMessageBox.ButtonCode.Yes)))]]
           else []) := by
  have hd : s.deliver (Signal.questionOccurred code args result)
      = s.questionOccurred code args result := by
    simp only [deliver, h]
    apply emit_one
    simp [h]
  rw [hd, questionOccurred_answers]

theorem question_answered_iff_install_untrusted_witness :
    startedClient.connQuestionOccurred = 1 ∧
    (startedClient.deliver
        (Signal.questionOccurred WorkerQuestion.InstallUntrusted untrustedArgs
          KMessageBox.ButtonCode.Yes)).answers
      = startedClient.answers ++
          (if WorkerQuestion.InstallUntrusted = WorkerQuestion.InstallUntrusted then
            [[("InstallUntrusted",
                QVariant.Boolean (decide (KMessageBox.ButtonCode.Yes = KMessageBox.ButtonCode.Yes)))]]
           else []) :=
  ⟨by decide,
    question_answered_iff_install_untrusted startedClient (by decide)
      WorkerQuestion.InstallUntrusted untrustedArgs KMessageBox.ButtonCode.Yes⟩

/-- C8 fails as stated: the started client receives a question whose code is
not InstallUntrusted and submits no answer for it. -/
theorem other_question_unanswered_counterexample :
    startedClient.connQuestionOccurred = 1 ∧
    startedClient.answers = [] ∧
    (startedClient.deliver
        (Signal.questionOccurred WorkerQuestion.Unknown [] KMessageBox.ButtonCode.Yes)).answers
      = [] := by
  refine ⟨by decide, by decide, by decide⟩

theorem questionOccurred_decline (s : QAptBatch) (args : QVariantMap)
    (result : KMessageBox.ButtonCode) (hr : result ≠ KMessageBox.ButtonCode.Yes) :
    s.questionOccurred WorkerQuestion.InstallUntrusted args result
      = { s with visible := false, closed := true,
                 questions := (s.questionOccurred WorkerQuestion.InstallUntrusted args result).questions,
                 workerCalls := s.workerCalls ++
                   [WorkerCall.answerWorkerQuestion [("InstallUntrusted", QVariant.Boolean false)]] } := by
  cases result <;> simp [questionOccurred, «show», close, QMap.insert] at hr ⊢

theorem commitPhase_slot_keeps (c : List WorkerCall) (m : List ErrorMessage) (sig : Signal)
    (hsig : sig.isCommitPhase = true) (s : QAptBatch)
    (h : s.workerCalls = c ∧ s.messages = m ∧ s.closed = true) :
    (s.deliver sig).workerCalls = c ∧ (s.deliver sig).messages = m ∧
      (s.deliver sig).closed = true := by
  cases sig with
  | commitProgress message percentage =>
    exact emit_invariant (fun t => t.workerCalls = c ∧ t.messages = m ∧ t.closed = true) _ _
      (fun t ht => by simpa [updateCommitProgress] using ht) _ s h
  | workerEvent code =>
    cases code <;> simp [Signal.isCommitPhase] at hsig
    · exact emit_invariant (fun t => t.workerCalls = c ∧ t.messages = m ∧ t.closed = true) _ _
        (fun t ht => by simpa [workerEvent, «show»] using ht) _ s h
    · exact emit_invariant (fun t => t.workerCalls = c ∧ t.messages = m ∧ t.closed = true) _ _
        (fun t ht => by
          simp only [workerEvent]
          split_ifs <;> exact ht) _ s h
  | workerStarted => simp [Signal.isCommitPhase] at hsig
  | workerFinished success => simp [Signal.isCommitPhase] at hsig
  | errorOccurred code args => simp [Signal.isCommitPhase] at hsig
  | questionOccurred code args result => simp [Signal.isCommitPhase] at hsig
  | downloadProgress percentage speed ETA => simp [Signal.isCommitPhase] at hsig
  | serviceOwnerChanged name oldOwner newOwner => simp [Signal.isCommitPhase] at hsig
  | cancelClicked => simp [Signal.isCommitPhase] at hsig

theorem deliver_commitProgress_label (s : QAptBatch) (h : 0 < s.connCommitProgress)
    (message : String) (percentage : Int) :
    (s.deliver (Signal.commitProgress message percentage)).labelText = message := by
  simp only [deliver]
  obtain ⟨n, hn⟩ : ∃ n, s.connCommitProgress = n + 1 := ⟨s.connCommitProgress - 1, by omega⟩
  rw [hn]
  simp only [emit, hn, Nat.succ_ne_zero, if_false]
  exact emit_invariant (fun t => t.labelText = message) _ _
    (fun t _ => by simp [updateCommitProgress]) n _ (by simp [updateCommitProgress])

/-- C9, as the code has it: when an untrusted-packages question is answered
with anything but Yes, the client submits the answer InstallUntrusted = false
and closes its dialog, and it keeps every subscription it had. Commit-phase
events (commitProgress, CommitChangesStarted, CommitChangesFinished) delivered
afterwards are therefore still handled: they send nothing to the worker, raise
no message and leave the client marked closed, but a commitProgress event sets
the label to its message whenever the client was subscribed to it. -/
theorem decline_closes_and_stays_subscribed (s : QAptBatch) (h : s.connQuestionOccurred = 1)
    (args : QVariantMap) (result : KMessageBox.ButtonCode)
    (hr : result ≠ KMessageBox.ButtonCode.Yes) :
    (s.deliver (Signal.questionOccurred WorkerQuestion.InstallUntrusted args result)).answers
        = s.answers ++ [[("InstallUntrusted", QVariant.Boolean false)]] ∧
    (s.deliver (Signal.questionOccurred WorkerQuestion.InstallUntrusted args result)).closed
        = true ∧
    (s.deliver (Signal.questionOccurred WorkerQuestion.InstallUntrusted args result)).visible
        = false ∧
    (s.deliver (Signal.questionOccurred WorkerQuestion.InstallUntrusted args result)).connCommitProgress
        = s.connCommitProgress ∧
    (s.deliver (Signal.questionOccurred WorkerQuestion.InstallUntrusted args result)).connWorkerEvent
        = s.connWorkerEvent ∧
    (∀ sig : Signal, sig.isCommitPhase = true →
      ((s.deliver (Signal.questionOccurred WorkerQuestion.InstallUntrusted args result)).deliver
          sig).workerCalls
        = (s.deliver (Signal.questionOccurred WorkerQuestion.InstallUntrusted args result)).workerCalls ∧
      ((s.deliver (Signal.questionOccurred WorkerQuestion.InstallUntrusted args result)).deliver
          sig).messages
        = (s.deliver (Signal.questionOccurred WorkerQuestion.InstallUntrusted args result)).messages ∧
      ((s.deliver (Signal.questionOccurred WorkerQuestion.InstallUntrusted args result)).deliver
          sig).closed = true) ∧
    (0 < s.connCommitProgress → ∀ (message : String) (percentage : Int),
      ((s.deliver (Signal.questionOccurred WorkerQuestion.InstallUntrusted args result)).deliver
          (Signal.commitProgress message percentage)).labelText = message) := by
  have hd : s.deliver (Signal.questionOccurred WorkerQuestion.InstallUntrusted args result)
      = s.questionOccurred WorkerQuestion.InstallUntrusted args result := by
    simp only [deliver, h]
    apply emit_one
    simp [h]
  have hq := questionOccurred_decline s args result hr
  rw [hd]
  refine ⟨?_, ?_, ?_, ?_, ?_, ?_, ?_⟩
  · rw [questionOccurred_answers]
    cases result <;> simp at hr ⊢
  · rw [hq]
  · rw [hq]
  · rw [hq]
  · rw [hq]
  · intro sig hsig
    exact commitPhase_slot_keeps _ _ sig hsig _ ⟨rfl, rfl, by rw [hq]⟩
  · intro hc message percentage
    apply deliver_commitProgress_label
    rw [hq]
    exact hc

theorem decline_closes_and_stays_subscribed_witness :
    startedClient.connQuestionOccurred = 1 ∧
    KMessageBox.ButtonCode.No ≠ KMessageBox.ButtonCode.Yes ∧
    0 < startedClient.connCommitProgress ∧
    declinedClient.answers = startedClient.answers ++ [[("InstallUntrusted", QVariant.Boolean false)]] ∧
    declinedClient.closed = true ∧
    (declinedClient.deliver (Signal.commitProgress "Unpacking pkgA" 50)).labelText
      = "Unpacking pkgA" :=
  have w := decline_closes_and_stays_subscribed startedClient (by decide) untrustedArgs
    KMessageBox.ButtonCode.No (by decide)
  ⟨by decide, by decide, by decide, w.1, w.2.1, w.2.2.2.2.2.2 (by decide) "Unpacking pkgA" 50⟩

/-- C9 fails as stated: after the user declined and the client closed, a
commitProgress event is still delivered to its slot and changes the label and
the progress value of the client. -/
theorem commit_progress_after_decline_counterexample :
    declinedClient.closed = true ∧
    declinedClient.answers = [[("InstallUntrusted", QVariant.Boolean false)]] ∧
    declinedClient.labelText = "Waiting for authorization" ∧
    (declinedClient.deliver (Signal.commitProgress "Unpacking pkgA" 50)).labelText
      = "Unpacking pkgA" ∧
    declinedClient.deliver (Signal.commitProgress "Unpacking pkgA" 50) ≠ declinedClient := by
  refine ⟨by decide, by decide, by decide, by decide, by decide⟩

theorem deliver_workerEvent (s : QAptBatch) (h : s.connWorkerEvent = 1) (code : WorkerEvent) :
    s.deliver (Signal.workerEvent code) = s.workerEvent code := by
  simp only [deliver, h]
  apply emit_one
  simp [h]

theorem workerEvent_connWorkerEvent (s : QAptBatch) (code : WorkerEvent) :
    (s.workerEvent code).connWorkerEvent = s.connWorkerEvent := by
  cases code <;> simp only [workerEvent, «show»]
  split_ifs <;> rfl

theorem afterPhases_cons (s : QAptBatch) (h : s.connWorkerEvent = 1) (code : WorkerEvent)
    (codes : List WorkerEvent) :
    s.afterPhases (code :: codes) = (s.workerEvent code).afterPhases codes := by
  simp only [afterPhases, List.map_cons, deliverAll_cons, deliver_workerEvent s h]

theorem afterPhases_connWorkerEvent (codes : List WorkerEvent) (s : QAptBatch)
    (h : s.connWorkerEvent = 1) : (s.afterPhases codes).connWorkerEvent = 1 := by
  induction codes generalizing s with
  | nil => exact h
  | cons c cs ih =>
    rw [afterPhases_cons s h]
    exact ih _ (by rw [workerEvent_connWorkerEvent, h])

theorem afterPhases_append (s : QAptBatch) (l₁ l₂ : List WorkerEvent) :
    s.afterPhases (l₁ ++ l₂) = (s.afterPhases l₁).afterPhases l₂ := by
  simp only [afterPhases, List.map_append, deliverAll_append]

theorem workerEvent_connCancelDownload (s : QAptBatch) (code : WorkerEvent) :
    (s.workerEvent code).connCancelDownload =
      (if code = WorkerEvent.PackageDownloadStarted ∨ code = WorkerEvent.CacheUpdateStarted then
        s.connCancelDownload + 1
       else if code = WorkerEvent.PackageDownloadFinished
           ∨ code = WorkerEvent.CacheUpdateFinished then 0
       else s.connCancelDownload) := by
  cases code <;> simp [workerEvent, «show»]
  split_ifs <;> rfl

theorem cancel_connected_only_in_download (codes : List WorkerEvent) (s : QAptBatch)
    (h : s.connWorkerEvent = 1) (hpos : 0 < (s.afterPhases codes).connCancelDownload) :
    (0 < s.connCancelDownload ∧ WorkerEvent.PackageDownloadFinished ∉ codes
        ∧ WorkerEvent.CacheUpdateFinished ∉ codes) ∨
    ∃ pre post, (codes = pre ++ WorkerEvent.PackageDownloadStarted :: post
          ∨ codes = pre ++ WorkerEvent.CacheUpdateStarted :: post)
        ∧ WorkerEvent.PackageDownloadFinished ∉ post
        ∧ WorkerEvent.CacheUpdateFinished ∉ post := by
  induction codes generalizing s with
  | nil => exact Or.inl ⟨hpos, by simp, by simp⟩
  | cons c cs ih =>
    rw [afterPhases_cons s h] at hpos
    have hc := workerEvent_connCancelDownload s c
    rcases ih (s.workerEvent c) (by rw [workerEvent_connWorkerEvent, h]) hpos with
      ⟨h1, h2, h3⟩ | ⟨pre, post, hsplit, h2, h3⟩
    · by_cases hs : c = WorkerEvent.PackageDownloadStarted ∨ c = WorkerEvent.CacheUpdateStarted
      · right
        refine ⟨[], cs, ?_, h2, h3⟩
        rcases hs with hs | hs
        · exact Or.inl (by simp [hs])
        · exact Or.inr (by simp [hs])
      · by_cases hf : c = WorkerEvent.PackageDownloadFinished
            ∨ c = WorkerEvent.CacheUpdateFinished
        · rw [hc, if_neg hs, if_pos hf] at h1
          exact absurd h1 (by decide)
        · rw [hc, if_neg hs, if_neg hf] at h1
          left
          refine ⟨h1, ?_, ?_⟩
          · intro hm
            rcases List.mem_cons.mp hm with e | e
            · exact hf (Or.inl e.symm)
            · exact h2 e
          · intro hm
            rcases List.mem_cons.mp hm with e | e
            · exact hf (Or.inr e.symm)
            · exact h3 e
    · right
      refine ⟨c :: pre, post, ?_, h2, h3⟩
      rcases hsplit with e | e
      · exact Or.inl (by simp [e])
      · exact Or.inr (by simp [e])

theorem cancel_stays_disconnected (codes : List WorkerEvent) (s : QAptBatch)
    (h : s.connWorkerEvent = 1) (h0 : s.connCancelDownload = 0)
    (h1 : WorkerEvent.PackageDownloadStarted ∉ codes)
    (h2 : WorkerEvent.CacheUpdateStarted ∉ codes) :
    (s.afterPhases codes).connCancelDownload = 0 := by
  induction codes generalizing s with
  | nil => exact h0
  | cons c cs ih =>
    rw [afterPhases_cons s h]
    simp only [List.mem_cons, not_or] at h1 h2
    apply ih _ (by rw [workerEvent_connWorkerEvent, h]) _ h1.2 h2.2
    rw [workerEvent_connCancelDownload]
    have hs : ¬ (c = WorkerEvent.PackageDownloadStarted ∨ c = WorkerEvent.CacheUpdateStarted) := by
      intro e
      rcases e with e | e
      · exact h1.1 e.symm
      · exact h2.1 e.symm
    rw [if_neg hs]
    split_ifs
    · rfl
    · exact h0

theorem allowCancel_stays_off (codes : List WorkerEvent) (s : QAptBatch)
    (h : s.connWorkerEvent = 1) (h0 : s.allowCancel = false) :
    (s.afterPhases codes).allowCancel = false := by
  induction codes generalizing s with
  | nil => exact h0
  | cons c cs ih =>
    rw [afterPhases_cons s h]
    apply ih _ (by rw [workerEvent_connWorkerEvent, h])
    cases c <;> simp only [workerEvent, «show»]
    all_goals first | exact h0 | rfl | (split_ifs <;> exact h0)

theorem cancelRejected_of_disconnected (s : QAptBatch) (h : s.connCancelDownload = 0) :
    CancelRejected s := by
  simp [CancelRejected, deliver, h, emit]

theorem connected_of_cancelReaches (s : QAptBatch) (h : CancelReaches s) :
    0 < s.connCancelDownload := by
  by_contra hn
  have h0 : s.connCancelDownload = 0 := by omega
  have hr : s.deliver Signal.cancelClicked = s := cancelRejected_of_disconnected s h0
  unfold CancelReaches at h
  rw [hr] at h
  exact lt_irrefl _ h

theorem construct_connections (flags : PackageFlags) (mode : String) (packages : List String)
    (winId : Int) :
    (construct flags mode packages winId).connWorkerEvent = 1 ∧
      (construct flags mode packages winId).connCancelDownload = 0 := by
  unfold construct
  simp only
  split_ifs <;> exact ⟨rfl, rfl⟩

/-- C4, as the code has it: for every sequence of phase codes delivered to a
newly built client, a click on Cancel reaches cancelDownload only while the
transaction is in a download phase (after PackageDownloadStarted or
CacheUpdateStarted and before the corresponding Finished code). The
connection from Cancel to cancelDownload is dropped by PackageDownloadFinished
and CacheUpdateFinished, not by CommitChangesStarted: once no download phase is
open, Cancel is a no-op that does not reach cancelDownload. What
CommitChangesStarted does is switch the cancel permission of the dialog off,
and it stays off in every later state. -/
theorem cancel_gated_by_download_phase (flags : PackageFlags) (mode : String)
    (packages : List String) (winId : Int) (codes : List WorkerEvent) :
    (CancelReaches ((construct flags mode packages winId).afterPhases codes) →
        InDownloadPhase codes) ∧
    (DownloadClosed codes →
        CancelRejected ((construct flags mode packages winId).afterPhases codes)) ∧
    (WorkerEvent.CommitChangesStarted ∈ codes →
        ((construct flags mode packages winId).afterPhases codes).allowCancel = false) := by
  obtain ⟨hw, hc⟩ := construct_connections flags mode packages winId
  refine ⟨?_, ?_, ?_⟩
  · intro hr
    have hpos := connected_of_cancelReaches _ hr
    rcases cancel_connected_only_in_download codes _ hw hpos with
      ⟨h1, _, _⟩ | ⟨pre, post, hsplit, h2, h3⟩
    · rw [hc] at h1
      exact absurd h1 (by decide)
    · rcases hsplit with e | e
      · exact ⟨pre, post, Or.inl ⟨e, h2⟩⟩
      · exact ⟨pre, post, Or.inr ⟨e, h3⟩⟩
  · intro hd
    apply cancelRejected_of_disconnected
    rcases hd with ⟨h1, h2⟩ | ⟨pre, fin, post, hsplit, hfin, h1, h2⟩
    · exact cancel_stays_disconnected codes _ hw hc h1 h2
    · have hsplit' : codes = pre ++ ([fin] ++ post) := by simpa using hsplit
      rw [hsplit', afterPhases_append, afterPhases_append]
      have hw1 := afterPhases_connWorkerEvent pre _ hw
      have hw2 := afterPhases_connWorkerEvent [fin] _ hw1
      apply cancel_stays_disconnected post _ hw2 _ h1 h2
      rw [afterPhases_cons _ hw1]
      show (((construct flags mode packages winId).afterPhases pre).workerEvent fin).connCancelDownload = 0
      rw [workerEvent_connCancelDownload]
      rcases hfin with e | e <;> simp [e]
  · intro hm
    obtain ⟨pre, post, hsplit⟩ := List.append_of_mem hm
    have hsplit' : codes = pre ++ ([WorkerEvent.CommitChangesStarted] ++ post) := by
      simpa using hsplit
    rw [hsplit', afterPhases_append, afterPhases_append]
    have hw1 := afterPhases_connWorkerEvent pre _ hw
    have hw2 := afterPhases_connWorkerEvent [WorkerEvent.CommitChangesStarted] _ hw1
    apply allowCancel_stays_off post _ hw2
    rw [afterPhases_cons _ hw1]
    rfl

theorem cancel_gated_by_download_phase_witness :
    CancelReaches ((construct exampleFlags "install" ["pkgA"] 0).afterPhases
        [WorkerEvent.PackageDownloadStarted]) ∧
    InDownloadPhase [WorkerEvent.PackageDownloadStarted] ∧
    DownloadClosed [WorkerEvent.PackageDownloadStarted, WorkerEvent.PackageDownloadFinished,
        WorkerEvent.CommitChangesStarted] ∧
    WorkerEvent.CommitChangesStarted ∈ [WorkerEvent.PackageDownloadStarted,
        WorkerEvent.PackageDownloadFinished, WorkerEvent.CommitChangesStarted] ∧
    CancelRejected ((construct exampleFlags "install" ["pkgA"] 0).afterPhases
        [WorkerEvent.PackageDownloadStarted, WorkerEvent.PackageDownloadFinished,
          WorkerEvent.CommitChangesStarted]) ∧
    ((construct exampleFlags "install" ["pkgA"] 0).afterPhases
        [WorkerEvent.PackageDownloadStarted, WorkerEvent.PackageDownloadFinished,
          WorkerEvent.CommitChangesStarted]).allowCancel = false :=
  have hclosed : DownloadClosed [WorkerEvent.PackageDownloadStarted,
      WorkerEvent.PackageDownloadFinished, WorkerEvent.CommitChangesStarted] :=
    Or.inr ⟨[WorkerEvent.PackageDownloadStarted], WorkerEvent.PackageDownloadFinished,
      [WorkerEvent.CommitChangesStarted], rfl, Or.inl rfl, by decide, by decide⟩
  have hreach : CancelReaches ((construct exampleFlags "install" ["pkgA"] 0).afterPhases
      [WorkerEvent.PackageDownloadStarted]) := by decide
  ⟨hreach,
    (cancel_gated_by_download_phase exampleFlags "install" ["pkgA"] 0
      [WorkerEvent.PackageDownloadStarted]).1 hreach,
    hclosed, by decide,
    (cancel_gated_by_download_phase exampleFlags "install" ["pkgA"] 0
      [WorkerEvent.PackageDownloadStarted, WorkerEvent.PackageDownloadFinished,
        WorkerEvent.CommitChangesStarted]).2.1 hclosed,
    (cancel_gated_by_download_phase exampleFlags "install" ["pkgA"] 0
      [WorkerEvent.PackageDownloadStarted, WorkerEvent.PackageDownloadFinished,
        WorkerEvent.CommitChangesStarted]).2.2 (by decide)⟩

/-- C4 fails as stated: a download is started and, with no
PackageDownloadFinished in between, CommitChangesStarted is received; the
connection made at PackageDownloadStarted is still there, so a click on Cancel
is not a no-op and reaches cancelDownload. -/
theorem cancel_after_commit_started_counterexample :
    commitDuringDownload.connCancelDownload = 1 ∧
    ¬ CancelRejected commitDuringDownload ∧
    CancelReaches commitDuringDownload ∧
    (commitDuringDownload.deliver Signal.cancelClicked).workerCalls
      = commitDuringDownload.workerCalls ++ [WorkerCall.cancelDownload] := by
  refine ⟨by decide, by decide, by decide, by decide⟩

theorem deliver_progress (s : QAptBatch) (h : InPhase s) (e : Signal) (p : Int)
    (he : e.progressPercent = some p) :
    (s.deliver e).progressBar = s.progressBar.setValue p ∧ InPhase (s.deliver e) := by
  obtain ⟨hmin, hmax, hd, hc⟩ := h
  cases e with
  | downloadProgress percentage speed ETA =>
    simp only [Signal.progressPercent, Option.some.injEq] at he
    subst he
    have hdel : s.deliver (Signal.downloadProgress percentage speed ETA)
        = s.updateDownloadProgress percentage speed ETA := by
      simp only [deliver, hd]
      apply emit_one
      simp [hd]
    rw [hdel]
    refine ⟨rfl, ?_⟩
    simp only [InPhase, updateDownloadProgress, QProgressBar.setValue]
    split_ifs <;> exact ⟨hmin, hmax, hd, hc⟩
  | commitProgress message percentage =>
    simp only [Signal.progressPercent, Option.some.injEq] at he
    subst he
    have hdel : s.deliver (Signal.commitProgress message percentage)
        = s.updateCommitProgress message percentage := by
      simp only [deliver, hc]
      apply emit_one
      simp [hc]
    rw [hdel]
    refine ⟨rfl, ?_⟩
    simp only [InPhase, updateCommitProgress, QProgressBar.setValue]
    split_ifs <;> exact ⟨hmin, hmax, hd, hc⟩
  | workerStarted => simp [Signal.progressPercent] at he
  | workerEvent code => simp [Signal.progressPercent] at he
  | workerFinished success => simp [Signal.progressPercent] at he
  | errorOccurred code args => simp [Signal.progressPercent] at he
  | questionOccurred code args result => simp [Signal.progressPercent] at he
  | serviceOwnerChanged name oldOwner newOwner => simp [Signal.progressPercent] at he
  | cancelClicked => simp [Signal.progressPercent] at he

theorem deliverAll_progress_inPhase (events : List Signal) (s : QAptBatch) (h : InPhase s)
    (hev : ∀ x ∈ events, x.progressPercent ≠ none) : InPhase (s.deliverAll events) := by
  induction events generalizing s with
  | nil => exact h
  | cons e es ih =>
    rw [deliverAll_cons]
    obtain ⟨p, hp⟩ := Option.ne_none_iff_exists'.mp (hev e (List.mem_cons_self e es))
    exact ih _ (deliver_progress s h e p hp).2 (fun x hx => hev x (List.mem_cons_of_mem e hx))

/-- C11, as the code has it: within one phase (client subscribed to both
progress signals, bar ranging over 0..100), after each downloadProgress or
commitProgress event the progress value held is the percent that event
carried when it lies within 0..100, and the value held before otherwise. So a
value within 0..100 stays within 0..100, but nothing makes it non-decreasing:
it becomes smaller whenever an event carries a smaller percent. -/
theorem progress_value_after_each_event (s : QAptBatch) (h : InPhase s)
    (pre : List Signal) (hpre : ∀ x ∈ pre, x.progressPercent ≠ none)
    (e : Signal) (p : Int) (he : e.progressPercent = some p) :
    (s.deliverAll (pre ++ [e])).progressBar.value
        = (if 0 ≤ p ∧ p ≤ 100 then p else (s.deliverAll pre).progressBar.value) ∧
    (0 ≤ (s.deliverAll pre).progressBar.value ∧ (s.deliverAll pre).progressBar.value ≤ 100 →
      0 ≤ (s.deliverAll (pre ++ [e])).progressBar.value ∧
        (s.deliverAll (pre ++ [e])).progressBar.value ≤ 100) := by
  have hin := deliverAll_progress_inPhase pre s h hpre
  have hstep := (deliver_progress _ hin e p he).1
  have hval : (s.deliverAll (pre ++ [e])).progressBar.value
      = (if 0 ≤ p ∧ p ≤ 100 then p else (s.deliverAll pre).progressBar.value) := by
    rw [deliverAll_append]
    show ((s.deliverAll pre).deliver e).progressBar.value = _
    rw [hstep]
    obtain ⟨hmin, hmax, _, _⟩ := hin
    simp only [QProgressBar.setValue, hmin, hmax]
    by_cases hr : 0 ≤ p ∧ p ≤ 100
    · have h1 : ¬ ((p > 100 ∨ p < 0) ∧ ((100 : Int) ≠ 0 ∨ (0 : Int) ≠ 0)) := by
        intro hc
        omega
      rw [if_neg h1, if_pos hr]
    · have h1 : (p > 100 ∨ p < 0) ∧ ((100 : Int) ≠ 0 ∨ (0 : Int) ≠ 0) := by
        refine ⟨?_, Or.inl (by decide)⟩
        omega
      rw [if_pos h1, if_neg hr]
  refine ⟨hval, ?_⟩
  intro hb
  rw [hval]
  split_ifs with hr
  · exact hr
  · exact hb

theorem progress_value_after_each_event_witness :
    InPhase startedClient ∧
    (∀ x ∈ [Signal.downloadProgress 50 1000 60], x.progressPercent ≠ none) ∧
    (Signal.downloadProgress 30 1000 60).progressPercent = some 30 ∧
    (startedClient.deliverAll
        ([Signal.downloadProgress 50 1000 60] ++ [Signal.downloadProgress 30 1000 60])).progressBar.value
      = (if (0 : Int) ≤ 30 ∧ (30 : Int) ≤ 100 then 30
         else (startedClient.deliverAll [Signal.downloadProgress 50 1000 60]).progressBar.value) :=
  ⟨by decide, by decide, rfl,
    (progress_value_after_each_event startedClient (by decide)
      [Signal.downloadProgress 50 1000 60] (by decide)
      (Signal.downloadProgress 30 1000 60) 30 rfl).1⟩

/-- C11 fails as stated: within the download phase the agent reports 50 and
then 30; the client holds 50 and then 30, a smaller value. And when the first
event of the phase carries 150, the bar ignores it and the value held is still
the -1 it had before any progress, outside 0..100. -/
theorem progress_decreases_counterexample :
    InPhase startedClient ∧
    (startedClient.deliver (Signal.downloadProgress 50 1000 60)).progressBar.value = 50 ∧
    ((startedClient.deliver (Signal.downloadProgress 50 1000 60)).deliver
        (Signal.downloadProgress 30 1000 60)).progressBar.value = 30 ∧
    (startedClient.deliver (Signal.downloadProgress 150 1000 60)).progressBar.value = -1 := by
  refine ⟨by decide, by decide, by decide, by decide⟩

/-- C12: an errorOccurred event whose code is none of the seven known error
kinds and a workerEvent whose code is none of the six known phase codes are
dropped: delivering either leaves the whole client state as it was (no
message, no finish, no close, every field unchanged), for every state and
argument map. -/
theorem unknown_codes_dropped (s : QAptBatch) (code : ErrorCode) (args : QVariantMap)
    (event : WorkerEvent)
    (hcode : code ∉ [ErrorCode.InitError, ErrorCode.LockError, ErrorCode.DiskSpaceError,
      ErrorCode.FetchError, ErrorCode.CommitError, ErrorCode.AuthError,
      ErrorCode.UntrustedError])
    (hevent : event ∉ [WorkerEvent.CacheUpdateStarted, WorkerEvent.CacheUpdateFinished,
      WorkerEvent.PackageDownloadStarted, WorkerEvent.PackageDownloadFinished,
      WorkerEvent.CommitChangesStarted, WorkerEvent.CommitChangesFinished]) :
    s.errorOccurred code args = s ∧ s.workerEvent event = s ∧
      s.deliver (Signal.errorOccurred code args) = s ∧
      s.deliver (Signal.workerEvent event) = s := by
  have h1 : s.errorOccurred code args = s := by
    cases code <;> simp at hcode
    rfl
  have h2 : s.workerEvent event = s := by
    cases event <;> simp at hevent
    rfl
  exact ⟨h1, h2, emit_of_fixed _ _ _ s h1, emit_of_fixed _ _ _ s h2⟩

theorem unknown_codes_dropped_witness :
    ErrorCode.Unknown ∉ [ErrorCode.InitError, ErrorCode.LockError, ErrorCode.DiskSpaceError,
      ErrorCode.FetchError, ErrorCode.CommitError, ErrorCode.AuthError,
      ErrorCode.UntrustedError] ∧
    WorkerEvent.Unknown ∉ [WorkerEvent.CacheUpdateStarted, WorkerEvent.CacheUpdateFinished,
      WorkerEvent.PackageDownloadStarted, WorkerEvent.PackageDownloadFinished,
      WorkerEvent.CommitChangesStarted, WorkerEvent.CommitChangesFinished] ∧
    startedClient.deliver (Signal.errorOccurred ErrorCode.Unknown untrustedArgs) = startedClient ∧
    startedClient.deliver (Signal.workerEvent WorkerEvent.Unknown) = startedClient :=
  have w := unknown_codes_dropped startedClient ErrorCode.Unknown untrustedArgs
    WorkerEvent.Unknown (by decide) (by decide)
  ⟨by decide, by decide, w.2.2.1, w.2.2.2⟩

/-- C14 against the code: an ETA of one hour (3600 s, well inside two weeks)
is shown as "Unknown". The slot compares the ETA in milliseconds with the
number of seconds in two weeks, so a remaining time is shown for an ETA of
1..1209 seconds only: 1209 s is formatted, 1210 s is "Unknown". -/
theorem eta_one_hour_shown_unknown :
    (0 : Int) < 3600 ∧ (3600 : Int) < 1209600 ∧
    (startedClient.updateDownloadProgress 10 1000 3600).timeText = DetailText.Unknown ∧
    (startedClient.deliver (Signal.downloadProgress 10 1000 3600)).timeText
      = DetailText.Unknown ∧
    (startedClient.updateDownloadProgress 10 1000 1209).timeText
      = DetailText.Duration 1209000 ∧
    (startedClient.updateDownloadProgress 10 1000 1210).timeText = DetailText.Unknown := by
  refine ⟨by decide, by decide, by decide, by decide, by decide, by decide⟩

/-- C16: for an InstallUntrusted question the client sends exactly one
answerWorkerQuestion; its response map has the single key InstallUntrusted,
whose value is true exactly when the dialog returned Yes (No and every other
result give false); on a result other than Yes the client closes, on Yes it
does not. -/
theorem install_untrusted_response (s : QAptBatch) (args : QVariantMap)
    (result : KMessageBox.ButtonCode) :
    ∃ response : QVariantMap,
      (s.questionOccurred WorkerQuestion.InstallUntrusted args result).workerCalls
        = s.workerCalls ++ [WorkerCall.answerWorkerQuestion response] ∧
      QMap.keys response = ["InstallUntrusted"] ∧
      QMap.find response "InstallUntrusted"
        = some (QVariant.Boolean (decide (result = KMessageBox.ButtonCode.Yes))) ∧
      (s.questionOccurred WorkerQuestion.InstallUntrusted args result).closed
        = (if result = KMessageBox.ButtonCode.Yes then s.closed else true) ∧
      (s.questionOccurred WorkerQuestion.InstallUntrusted args result).visible
        = (if result = KMessageBox.ButtonCode.Yes then true else false) := by
  refine ⟨[("InstallUntrusted",
    QVariant.Boolean (decide (result = KMessageBox.ButtonCode.Yes)))], ?_, rfl, ?_, ?_, ?_⟩
  · cases result <;> simp [questionOccurred, «show», close, QMap.insert]
  · simp [QMap.find]
  · cases result <;> simp [questionOccurred, «show», close]
  · cases result <;> simp [questionOccurred, «show», close]

theorem raiseErrorMessage_unsubscribes (s : QAptBatch) (text title : String) :
    (s.raiseErrorMessage text title).connDownloadProgress = 0 ∧
      (s.raiseErrorMessage text title).connCommitProgress = 0 ∧
      (s.raiseErrorMessage text title).connServiceOwnerChanged = 0 := by
  simp [raiseErrorMessage, workerFinished, close]

theorem deliver_unsubscribed (s : QAptBatch) (sig : Signal)
    (hd : s.connDownloadProgress = 0) (hc : s.connCommitProgress = 0)
    (ho : s.connServiceOwnerChanged = 0) (hsig : sig.isProgressOrLiveness = true) :
    s.deliver sig = s := by
  cases sig with
  | downloadProgress percentage speed ETA => simp [deliver, hd, emit]
  | commitProgress message percentage => simp [deliver, hc, emit]
  | serviceOwnerChanged name oldOwner newOwner => simp [deliver, ho, emit]
  | workerStarted => simp [Signal.isProgressOrLiveness] at hsig
  | workerEvent code => simp [Signal.isProgressOrLiveness] at hsig
  | workerFinished success => simp [Signal.isProgressOrLiveness] at hsig
  | errorOccurred code args => simp [Signal.isProgressOrLiveness] at hsig
  | questionOccurred code args result => simp [Signal.isProgressOrLiveness] at hsig
  | cancelClicked => simp [Signal.isProgressOrLiveness] at hsig

theorem errorOccurred_raises (s : QAptBatch) (code : ErrorCode) (args : QVariantMap)
    (title : String) (h : errorTitle code = some title) :
    s.errorOccurred code args = s.raiseErrorMessage (errorText code args) title := by
  simp [errorOccurred, h]

/-- C17: once raiseErrorMessage has run (every known error kind and the loss
of the agent go through it), the client holds no subscription to
downloadProgress, commitProgress or service-owner changes, and every later
sequence of such events leaves the whole client state unchanged: the progress
value and the label stay as they are and no further message is raised. -/
theorem raised_error_is_terminal (s : QAptBatch) (text title : String) (later : List Signal)
    (h : ∀ x ∈ later, x.isProgressOrLiveness = true) :
    (s.raiseErrorMessage text title).connDownloadProgress = 0 ∧
    (s.raiseErrorMessage text title).connCommitProgress = 0 ∧
    (s.raiseErrorMessage text title).connServiceOwnerChanged = 0 ∧
    (s.raiseErrorMessage text title).messages = s.messages ++ [ErrorMessage.mk text title] ∧
    (s.raiseErrorMessage text title).deliverAll later = s.raiseErrorMessage text title := by
  obtain ⟨hd, hc, ho⟩ := raiseErrorMessage_unsubscribes s text title
  refine ⟨hd, hc, ho, by simp [raiseErrorMessage, workerFinished, close], ?_⟩
  generalize s.raiseErrorMessage text title = t at hd hc ho
  induction later with
  | nil => rfl
  | cons e es ih =>
    rw [deliverAll_cons, deliver_unsubscribed t e hd hc ho (h e (List.mem_cons_self e es))]
    exact ih (fun x hx => h x (List.mem_cons_of_mem e hx))

theorem raised_error_is_terminal_witness :
    (∀ x ∈ [Signal.downloadProgress 70 1000 60, Signal.commitProgress "Unpacking pkgA" 20,
        Signal.serviceOwnerChanged "org.kubuntu.qaptworker" ":1.7" ""],
      x.isProgressOrLiveness = true) ∧
    startedClient.errorOccurred ErrorCode.FetchError []
      = startedClient.raiseErrorMessage (errorText ErrorCode.FetchError []) "Download failed" ∧
    (startedClient.raiseErrorMessage (errorText ErrorCode.FetchError []) "Download failed").deliverAll
        [Signal.downloadProgress 70 1000 60, Signal.commitProgress "Unpacking pkgA" 20,
          Signal.serviceOwnerChanged "org.kubuntu.qaptworker" ":1.7" ""]
      = startedClient.raiseErrorMessage (errorText ErrorCode.FetchError []) "Download failed" :=
  ⟨by decide, errorOccurred_raises startedClient ErrorCode.FetchError [] "Download failed" rfl,
    (raised_error_is_terminal startedClient (errorText ErrorCode.FetchError []) "Download failed"
      [Signal.downloadProgress 70 1000 60, Signal.commitProgress "Unpacking pkgA" 20,
        Signal.serviceOwnerChanged "org.kubuntu.qaptworker" ":1.7" ""] (by decide)).2.2.2.2⟩

end QAptBatch

namespace QString

theorem left_indexOf_cons (c : Char) (cs : QString) (ch : Char) :
    left (c :: cs) (indexOf (c :: cs) ch)
      = if c = ch then [] else c :: left cs (indexOf cs ch) := by
  by_cases h : c = ch
  · simp [indexOf, left, h]
  · simp only [indexOf, if_neg h]
    by_cases hi : indexOf cs ch < 0
    · simp [left, hi]
    · have h0 : 0 ≤ indexOf cs ch := by omega
      simp only [if_neg hi, left, List.length_cons, Nat.cast_add, Nat.cast_one]
      by_cases hl : indexOf cs ch ≥ (cs.length : Int)
      · have h1 : indexOf cs ch + 1 < 0 ∨ indexOf cs ch + 1 ≥ (cs.length : Int) + 1 :=
          Or.inr (by omega)
        have h2 : indexOf cs ch < 0 ∨ indexOf cs ch ≥ (cs.length : Int) := Or.inr hl
        rw [if_pos h1, if_pos h2]
      · have h1 : ¬ (indexOf cs ch + 1 < 0 ∨ indexOf cs ch + 1 ≥ (cs.length : Int) + 1) := by
          omega
        have h2 : ¬ (indexOf cs ch < 0 ∨ indexOf cs ch ≥ (cs.length : Int)) := by omega
        rw [if_neg h1, if_neg h2]
        have h3 : (indexOf cs ch + 1).toNat = (indexOf cs ch).toNat + 1 := by omega
        rw [h3, List.take_succ_cons]

theorem left_indexOf (s : QString) (ch : Char) :
    left s (indexOf s ch) = s.takeWhile (fun c => c ≠ ch) := by
  induction s with
  | nil => simp [left, indexOf]
  | cons c cs ih =>
    rw [left_indexOf_cons]
    by_cases h : c = ch
    · simp [h]
    · simp [h, ih]

end QString

namespace DebFile

/-- C13: for every Description field, shortDescription() contains no newline,
is a prefix of longDescription(), is followed in longDescription() by its
first newline when there is one, and equals longDescription() when the field
contains no newline. -/
theorem shortDescription_one_line (d : DebFile) :
    '\n' ∉ d.shortDescription ∧
    d.shortDescription <+: d.longDescription ∧
    ('\n' ∈ d.longDescription →
      ∃ rest, d.longDescription = d.shortDescription ++ '\n' :: rest) ∧
    ('\n' ∉ d.FindS "Description" → d.shortDescription = d.longDescription) := by
  have hs : d.shortDescription = d.longDescription.takeWhile (fun c => c ≠ '\n') := by
    simp only [shortDescription]
    exact QString.left_indexOf _ _
  refine ⟨?_, ?_, ?_, ?_⟩
  · rw [hs]
    intro hm
    have := List.mem_takeWhile_imp hm
    simp at this
  · rw [hs]
    exact List.takeWhile_prefix _
  · intro hm
    rw [hs]
    have hsplit := List.takeWhile_append_dropWhile (fun c => decide (c ≠ '\n')) d.longDescription
    cases hdrop : List.dropWhile (fun c => decide (c ≠ '\n')) d.longDescription with
    | nil =>
      rw [hdrop, List.append_nil] at hsplit
      have hall : ∀ c ∈ d.longDescription, decide (c ≠ '\n') = true :=
        List.takeWhile_eq_self_iff.mp hsplit
      have := hall '\n' hm
      simp at this
    | cons c rest =>
      have hc : c = '\n' := by
        have := List.head_dropWhile_not (fun c => decide (c ≠ '\n')) d.longDescription
          (by rw [hdrop]; simp)
        simp only [hdrop, List.head_cons] at this
        simpa using this
      subst hc
      refine ⟨rest, ?_⟩
      rw [hdrop] at hsplit
      exact hsplit.symm
  · intro hn
    rw [hs]
    apply List.takeWhile_eq_self_iff.mpr
    intro c hc
    have hc' : c ∈ d.FindS "Description" := (List.takeWhile_prefix _).subset hc
    have : c ≠ '\n' := fun e => hn (e ▸ hc')
    simpa using this

theorem shortDescription_one_line_witness :
    '\n' ∈ exampleDeb.longDescription ∧
    exampleDeb.shortDescription = "GNU hello".toList ∧
    ∃ rest, exampleDeb.longDescription = exampleDeb.shortDescription ++ '\n' :: rest :=
  ⟨by decide, by decide, (shortDescription_one_line exampleDeb).2.2.1 (by decide)⟩

end DebFile

namespace QString

theorem digitChar_facts (x : Nat) (h : x < 10) :
    isDigit (Nat.digitChar x) = true ∧ (Nat.digitChar x).toNat - 48 = x ∧
      isSpace (Nat.digitChar x) = false ∧ Nat.digitChar x ≠ '-' ∧ Nat.digitChar x ≠ '+' ∧
      Nat.digitChar x ≠ Char.ofNat 0 := by
  interval_cases x <;> decide

theorem foldl_digitChar (digits : List Nat) (h : ∀ x ∈ digits, x < 10) (acc : Nat) :
    (digits.map Nat.digitChar).foldl (fun acc c => acc * 10 + (c.toNat - 48)) acc
      = acc * 10 ^ digits.length + Nat.ofDigits 10 digits.reverse := by
  induction digits generalizing acc with
  | nil => simp
  | cons x xs ih =>
    have hx := (digitChar_facts x (h x (List.mem_cons_self x xs))).2.1
    simp only [List.map_cons, List.foldl_cons, hx, List.reverse_cons, List.length_cons]
    rw [ih (fun y hy => h y (List.mem_cons_of_mem x hy)), Nat.ofDigits_append,
      Nat.ofDigits_singleton, List.length_reverse]
    ring

theorem digitsValue_digitChar (digits : List Nat) (h : ∀ x ∈ digits, x < 10) :
    digitsValue (digits.map Nat.digitChar) = Nat.ofDigits 10 digits.reverse := by
  simp [digitsValue, foldl_digitChar digits h 0]

theorem all_isDigit_digitChar (digits : List Nat) (h : ∀ x ∈ digits, x < 10) :
    (digits.map Nat.digitChar).all isDigit = true := by
  simp only [List.all_eq_true, List.mem_map]
  rintro c ⟨x, hx, rfl⟩
  exact (digitChar_facts x (h x hx)).1

theorem dropWhile_of_head {p : Char → Bool} (c : Char) (cs : List Char) (h : p c = false) :
    (c :: cs).dropWhile p = c :: cs := by
  simp [List.dropWhile, h]

theorem trimmed_of_ends (first last : Char) (middle : List Char)
    (hf : isSpace first = false) (hl : isSpace last = false) :
    trimmed (first :: (middle ++ [last])) = first :: (middle ++ [last]) := by
  unfold trimmed
  rw [dropWhile_of_head first _ hf]
  have hrev : (first :: (middle ++ [last])).reverse = last :: (middle.reverse ++ [first]) := by
    simp
  rw [hrev, dropWhile_of_head last _ hl]
  simp

theorem trimmed_single (c : Char) (hc : isSpace c = false) : trimmed [c] = [c] := by
  simp [trimmed, List.dropWhile, hc]

theorem trimmed_digits (digits : List Nat) (h : ∀ x ∈ digits, x < 10) :
    trimmed (digits.map Nat.digitChar) = digits.map Nat.digitChar := by
  match digits, h with
  | [], _ => rfl
  | [x], h => exact trimmed_single _ (digitChar_facts x (h x (by simp))).2.2.1
  | x :: y :: rest, h =>
    obtain ⟨init, last, hlast⟩ : ∃ init last, y :: rest = init ++ [last] :=
      ⟨(y :: rest).dropLast, (y :: rest).getLast (by simp),
        (List.dropLast_append_getLast (by simp)).symm⟩
    have hmem : last ∈ x :: y :: rest := by
      rw [hlast]; simp
    rw [hlast, List.map_cons, List.map_append, List.map_singleton]
    exact trimmed_of_ends _ _ _ (digitChar_facts x (h x (by simp))).2.2.1
      (digitChar_facts last (h last hmem)).2.2.1

theorem trimmed_minus_digits (digits : List Nat) (hne : digits ≠ [])
    (h : ∀ x ∈ digits, x < 10) :
    trimmed ('-' :: digits.map Nat.digitChar) = '-' :: digits.map Nat.digitChar := by
  obtain ⟨init, last, hlast⟩ : ∃ init last, digits = init ++ [last] :=
    ⟨digits.dropLast, digits.getLast hne, (List.dropLast_append_getLast hne).symm⟩
  have hmem : last ∈ digits := by
    rw [hlast]; simp
  rw [hlast, List.map_append, List.map_singleton]
  exact trimmed_of_ends _ _ _ (by decide)
    (digitChar_facts last (h last hmem)).2.2.1

theorem toLongLong_numeral (negative : Bool) (digits : List Nat) (hne : digits ≠ [])
    (h : ∀ x ∈ digits, x < 10) :
    toLongLong ((if negative then ['-'] else []) ++ digits.map Nat.digitChar)
      = (let n : Int := if negative then -(DebFile.numeralValue digits : Int)
                        else (DebFile.numeralValue digits : Int)
         if -9223372036854775808 ≤ n ∧ n ≤ 9223372036854775807 then n else 0) := by
  obtain ⟨x, xs, hx⟩ : ∃ x xs, digits = x :: xs := by
    cases digits with
    | nil => exact absurd rfl hne
    | cons x xs => exact ⟨x, xs, rfl⟩
  have hmapne : digits.map Nat.digitChar ≠ [] := by simp [hne]
  have hall := all_isDigit_digitChar digits h
  have hval : digitsValue (digits.map Nat.digitChar) = DebFile.numeralValue digits :=
    digitsValue_digitChar digits h
  cases negative with
  | true =>
    simp only [if_true, List.singleton_append]
    unfold toLongLong
    rw [trimmed_minus_digits digits hne h]
    simp only [List.head?_cons, true_or, if_true, List.tail_cons, hmapne, ne_eq,
      not_false_eq_true, hall, and_self, hval]
  | false =>
    have hx0 := digitChar_facts x (h x (by rw [hx]; simp))
    simp only [Bool.false_eq_true, if_false, List.nil_append]
    unfold toLongLong
    rw [trimmed_digits digits h]
    have hhead : (digits.map Nat.digitChar).head? = some (Nat.digitChar x) := by
      rw [hx]; rfl
    have h1 : ¬ ((digits.map Nat.digitChar).head? = some '-'
        ∨ (digits.map Nat.digitChar).head? = some '+') := by
      rw [hhead]
      simp only [Option.some.injEq]
      intro hc
      rcases hc with hc | hc
      · exact hx0.2.2.2.1 hc
      · exact hx0.2.2.2.2.1 hc
    have h2 : ¬ ((digits.map Nat.digitChar).head? = some '-') := fun hc => h1 (Or.inl hc)
    simp only [if_neg h1, if_neg h2, hmapne, ne_eq, not_false_eq_true, hall, and_self, if_true,
      hval]

theorem mem_dropWhile_of_not {p : Char → Bool} (c : Char) (l : List Char) (hc : c ∈ l)
    (hp : p c = false) : c ∈ l.dropWhile p := by
  induction l with
  | nil => exact hc
  | cons a as ih =>
    simp only [List.dropWhile]
    cases hpa : p a with
    | true =>
      simp only
      rcases List.mem_cons.mp hc with e | e
      · rw [e, hpa] at hp
        cases hp
      · exact ih e
    | false => exact hc

theorem toLongLong_of_other_char (s : QString) (c : Char) (hc : c ∈ s)
    (hd : isDigit c = false) (hs : isSpace c = false) (hm : c ≠ '-') (hp : c ≠ '+') :
    toLongLong s = 0 := by
  have ht : c ∈ trimmed s := by
    unfold trimmed
    rw [List.mem_reverse]
    apply mem_dropWhile_of_not c _ _ hs
    rw [List.mem_reverse]
    exact mem_dropWhile_of_not c _ hc hs
  unfold toLongLong
  simp only
  have hdig : c ∈ (if (trimmed s).head? = some '-' ∨ (trimmed s).head? = some '+'
      then (trimmed s).tail else trimmed s) := by
    split_ifs with hh
    · cases htr : trimmed s with
      | nil => rw [htr] at ht; cases ht
      | cons a as =>
        rw [htr] at ht hh
        simp only [List.head?_cons, Option.some.injEq] at hh
        simp only [List.tail_cons]
        rcases List.mem_cons.mp ht with e | e
        · rcases hh with hh | hh
          · exact absurd (e.trans hh) hm
          · exact absurd (e.trans hh) hp
        · exact e
    · exact ht
  have hall : ¬ ((if (trimmed s).head? = some '-' ∨ (trimmed s).head? = some '+'
      then (trimmed s).tail else trimmed s).all isDigit = true) := by
    intro hall
    have := List.all_eq_true.mp hall c hdig
    rw [hd] at this
    cases this
  rw [if_neg (fun h => hall h.2)]

end QString

namespace DebFile

theorem c_str_decimalNumeral (negative : Bool) (digits : List Nat) (h : ∀ x ∈ digits, x < 10) :
    c_str (decimalNumeral negative digits) = decimalNumeral negative digits := by
  unfold c_str
  apply List.takeWhile_eq_self_iff.mpr
  intro c hc
  simp only [decimalNumeral, List.mem_append, List.mem_map] at hc
  have : c ≠ Char.ofNat 0 := by
    rcases hc with hc | ⟨x, hx, rfl⟩
    · cases negative <;> simp at hc
      subst hc
      decide
    · exact (QString.digitChar_facts x (h x hx)).2.2.2.2.2
  simpa using this

theorem toLongLong_of_trimmed (s t : QString) (ht : QString.trimmed s = t) :
    QString.toLongLong s
      = (if (if t.head? = some '-' ∨ t.head? = some '+' then t.tail else t) ≠ [] ∧
            (if t.head? = some '-' ∨ t.head? = some '+' then t.tail else t).all
              QString.isDigit = true then
          (if -9223372036854775808 ≤
                (if t.head? = some '-' then
                  -(QString.digitsValue
                      (if t.head? = some '-' ∨ t.head? = some '+' then t.tail else t) : Int)
                 else (QString.digitsValue
                      (if t.head? = some '-' ∨ t.head? = some '+' then t.tail else t) : Int)) ∧
              (if t.head? = some '-' then
                  -(QString.digitsValue
                      (if t.head? = some '-' ∨ t.head? = some '+' then t.tail else t) : Int)
                 else (QString.digitsValue
                      (if t.head? = some '-' ∨ t.head? = some '+' then t.tail else t) : Int))
                ≤ 9223372036854775807 then
            (if t.head? = some '-' then
                  -(QString.digitsValue
                      (if t.head? = some '-' ∨ t.head? = some '+' then t.tail else t) : Int)
                 else (QString.digitsValue
                      (if t.head? = some '-' ∨ t.head? = some '+' then t.tail else t) : Int))
           else 0)
         else 0) := by
  subst ht
  rfl

theorem toLongLong_plain (s : QString) (digits : List Nat) (hne : digits ≠ [])
    (h : ∀ x ∈ digits, x < 10) (ht : QString.trimmed s = digits.map Nat.digitChar) :
    QString.toLongLong s
      = (if -9223372036854775808 ≤ (numeralValue digits : Int) ∧
            (numeralValue digits : Int) ≤ 9223372036854775807 then (numeralValue digits : Int)
         else 0) := by
  obtain ⟨x, xs, hx⟩ : ∃ x xs, digits = x :: xs := by
    cases digits with
    | nil => exact absurd rfl hne
    | cons x xs => exact ⟨x, xs, rfl⟩
  have hmapne : digits.map Nat.digitChar ≠ [] := by simp [hne]
  have hall := QString.all_isDigit_digitChar digits h
  have hval : QString.digitsValue (digits.map Nat.digitChar) = numeralValue digits :=
    QString.digitsValue_digitChar digits h
  have hx0 := QString.digitChar_facts x (h x (by rw [hx]; simp))
  have hhead : (digits.map Nat.digitChar).head? = some (Nat.digitChar x) := by
    rw [hx]; rfl
  have h1 : ¬ ((digits.map Nat.digitChar).head? = some '-'
      ∨ (digits.map Nat.digitChar).head? = some '+') := by
    rw [hhead]
    simp only [Option.some.injEq]
    intro hc
    rcases hc with hc | hc
    · exact hx0.2.2.2.1 hc
    · exact hx0.2.2.2.2.1 hc
  have h2 : ¬ ((digits.map Nat.digitChar).head? = some '-') := fun hc => h1 (Or.inl hc)
  rw [toLongLong_of_trimmed s _ ht]
  simp only [if_neg h1, if_neg h2, hmapne, ne_eq, not_false_eq_true, hall, and_self, if_true,
    hval]

theorem toLongLong_signed (s : QString) (sign : Char) (hsign : sign = '-' ∨ sign = '+')
    (digits : List Nat) (hne : digits ≠ []) (h : ∀ x ∈ digits, x < 10)
    (ht : QString.trimmed s = sign :: digits.map Nat.digitChar) :
    QString.toLongLong s
      = (if -9223372036854775808 ≤
              (if sign = '-' then -(numeralValue digits : Int) else (numeralValue digits : Int)) ∧
            (if sign = '-' then -(numeralValue digits : Int) else (numeralValue digits : Int))
              ≤ 9223372036854775807 then
            (if sign = '-' then -(numeralValue digits : Int) else (numeralValue digits : Int))
         else 0) := by
  have hmapne : digits.map Nat.digitChar ≠ [] := by simp [hne]
  have hall := QString.all_isDigit_digitChar digits h
  have hval : QString.digitsValue (digits.map Nat.digitChar) = numeralValue digits :=
    QString.digitsValue_digitChar digits h
  have h1 : (sign :: digits.map Nat.digitChar).head? = some '-'
      ∨ (sign :: digits.map Nat.digitChar).head? = some '+' := by
    rcases hsign with e | e
    · exact Or.inl (by rw [e]; rfl)
    · exact Or.inr (by rw [e]; rfl)
  have h2 : ((sign :: digits.map Nat.digitChar).head? = some '-') ↔ sign = '-' := by
    simp
  rw [toLongLong_of_trimmed s _ ht]
  simp only [if_pos h1, List.tail_cons]
  simp only [hmapne, ne_eq, not_false_eq_true, hall, and_self, if_true, hval, h2]

theorem toLongLong_of_denotes (s : QString) (n : Int) (hd : Denotes (QString.trimmed s) n)
    (hlo : -9223372036854775808 ≤ n) (hhi : n ≤ 9223372036854775807) :
    QString.toLongLong s = n := by
  obtain ⟨digits, hne, hlt, hcase⟩ := hd
  rcases hcase with ⟨ht, hn⟩ | ⟨ht, hn⟩ | ⟨ht, hn⟩
  · rw [toLongLong_plain s digits hne hlt ht, ← hn, if_pos ⟨hlo, hhi⟩]
  · rw [toLongLong_signed s '+' (Or.inr rfl) digits hne hlt ht]
    have hs : ¬ ('+' = '-') := by decide
    simp only [if_neg hs, ← hn]
    rw [if_pos ⟨hlo, hhi⟩]
  · rw [toLongLong_signed s '-' (Or.inl rfl) digits hne hlt ht]
    simp only [if_true, ← hn]
    rw [if_pos ⟨hlo, hhi⟩]

theorem digitChar_of_isDigit (c : Char) (h : QString.isDigit c = true) :
    c.toNat - 48 < 10 ∧ Nat.digitChar (c.toNat - 48) = c := by
  simp only [QString.isDigit, decide_eq_true_eq] at h
  obtain ⟨h1, h2⟩ := h
  have hc : c = Char.ofNat c.toNat := (Char.ofNat_toNat c).symm
  generalize c.toNat = k at *
  subst hc
  refine ⟨by omega, ?_⟩
  interval_cases k <;> rfl

theorem exists_digits_of_all_isDigit (l : List Char) (h : l.all QString.isDigit = true) :
    ∃ digits : List Nat, (∀ x ∈ digits, x < 10) ∧ digits.map Nat.digitChar = l := by
  refine ⟨l.map (fun c => c.toNat - 48), ?_, ?_⟩
  · intro x hx
    obtain ⟨c, hc, rfl⟩ := List.mem_map.mp hx
    exact (digitChar_of_isDigit c (List.all_eq_true.mp h c hc)).1
  · rw [List.map_map]
    conv_rhs => rw [← List.map_id l]
    apply List.map_congr_left
    intro c hc
    exact (digitChar_of_isDigit c (List.all_eq_true.mp h c hc)).2

theorem toLongLong_zero_of_not_denotes (s : QString)
    (hno : ∀ n : Int, Denotes (QString.trimmed s) n →
      ¬ (-9223372036854775808 ≤ n ∧ n ≤ 9223372036854775807)) :
    QString.toLongLong s = 0 := by
  generalize ht : QString.trimmed s = t at hno
  by_cases hsigned : t.head? = some '-' ∨ t.head? = some '+'
  · obtain ⟨sign, rest, hcons, hsign⟩ : ∃ sign rest, t = sign :: rest ∧ (sign = '-' ∨ sign = '+') := by
      cases t with
      | nil => simp at hsigned
      | cons a as =>
        refine ⟨a, as, rfl, ?_⟩
        simpa using hsigned
    by_cases hc : rest ≠ [] ∧ rest.all QString.isDigit = true
    · obtain ⟨digits, hlt, hmap⟩ := exists_digits_of_all_isDigit rest hc.2
      have hne : digits ≠ [] := by
        intro e
        rw [e] at hmap
        exact hc.1 hmap.symm
      have ht' : QString.trimmed s = sign :: digits.map Nat.digitChar := by
        rw [ht, hcons, hmap]
      rw [toLongLong_signed s sign hsign digits hne hlt ht']
      apply if_neg
      apply hno
      refine ⟨digits, hne, hlt, ?_⟩
      rcases hsign with e | e
      · subst e
        exact Or.inr (Or.inr ⟨by rw [hcons, hmap], by simp⟩)
      · subst e
        have hs : ¬ ('+' = '-') := by decide
        exact Or.inr (Or.inl ⟨by rw [hcons, hmap], by simp [hs]⟩)
    · rw [toLongLong_of_trimmed s t ht, if_pos hsigned]
      rw [hcons, List.tail_cons]
      exact if_neg hc
  · by_cases hc : t ≠ [] ∧ t.all QString.isDigit = true
    · obtain ⟨digits, hlt, hmap⟩ := exists_digits_of_all_isDigit t hc.2
      have hne : digits ≠ [] := by
        intro e
        rw [e] at hmap
        exact hc.1 hmap.symm
      rw [toLongLong_plain s digits hne hlt (by rw [ht, hmap])]
      apply if_neg
      apply hno
      exact ⟨digits, hne, hlt, Or.inl ⟨hmap.symm, rfl⟩⟩
    · rw [toLongLong_of_trimmed s t ht, if_neg hsigned]
      exact if_neg hc

theorem denotes_tail_digits (t : QString) (n : Int) (h : Denotes t n) :
    ∀ c ∈ t.tail, QString.isDigit c = true := by
  obtain ⟨digits, _, hlt, hcase⟩ := h
  have hall := List.all_eq_true.mp (QString.all_isDigit_digitChar digits hlt)
  intro c hc
  rcases hcase with ⟨ht, _⟩ | ⟨ht, _⟩ | ⟨ht, _⟩
  · rw [ht] at hc
    exact hall c (List.mem_of_mem_tail hc)
  · rw [ht, List.tail_cons] at hc
    exact hall c hc
  · rw [ht, List.tail_cons] at hc
    exact hall c hc

theorem denotes_has_digit (t : QString) (n : Int) (h : Denotes t n) :
    ∃ c ∈ t, QString.isDigit c = true := by
  obtain ⟨digits, hne, hlt, hcase⟩ := h
  obtain ⟨x, xs, hx⟩ : ∃ x xs, digits = x :: xs := by
    cases digits with
    | nil => exact absurd rfl hne
    | cons x xs => exact ⟨x, xs, rfl⟩
  have hd := (QString.digitChar_facts x (hlt x (by rw [hx]; simp))).1
  refine ⟨Nat.digitChar x, ?_, hd⟩
  rcases hcase with ⟨ht, _⟩ | ⟨ht, _⟩ | ⟨ht, _⟩ <;> rw [ht, hx] <;> simp

/-- C15: installedSize() reads the Installed-Size field as a signed 64-bit
integer. With the white space around the field removed: when what is left is
a decimal numeral (one or more digits, alone or after a sign) whose value n
lies within the signed 64-bit range, the result is n; in every other case the
result is 0. In particular the result is 0 for an absent or empty field, for
a field without any digit, for a field with anything but digits after its
first character, and for a field holding a character that is neither a digit,
a sign nor white space. -/
theorem installedSize_decimal (d : DebFile) :
    (∀ n : Int, Denotes d.sizeText n →
      -9223372036854775808 ≤ n → n ≤ 9223372036854775807 → d.installedSize = n) ∧
    ((∀ n : Int, Denotes d.sizeText n →
        ¬ (-9223372036854775808 ≤ n ∧ n ≤ 9223372036854775807)) →
      d.installedSize = 0) ∧
    (∀ (negative : Bool) (digits : List Nat) (n : Int),
      digits ≠ [] → (∀ x ∈ digits, x < 10) →
      n = (if negative then -(numeralValue digits : Int) else (numeralValue digits : Int)) →
      -9223372036854775808 ≤ n → n ≤ 9223372036854775807 →
      d.FindS "Installed-Size" = decimalNumeral negative digits →
      d.installedSize = n) ∧
    (d.controlData.find? (fun field => field.1 == "Installed-Size") = none →
      d.installedSize = 0) ∧
    (d.FindS "Installed-Size" = [] → d.installedSize = 0) ∧
    ((∀ c ∈ d.sizeText, QString.isDigit c = false) → d.installedSize = 0) ∧
    ((∃ c ∈ d.sizeText.tail, QString.isDigit c = false) → d.installedSize = 0) ∧
    ((∃ c ∈ c_str (d.FindS "Installed-Size"),
        QString.isDigit c = false ∧ QString.isSpace c = false ∧ c ≠ '-' ∧ c ≠ '+') →
      d.installedSize = 0) := by
  have hzero : (∀ n : Int, Denotes d.sizeText n →
        ¬ (-9223372036854775808 ≤ n ∧ n ≤ 9223372036854775807)) → d.installedSize = 0 :=
    fun hno => toLongLong_zero_of_not_denotes _ hno
  refine ⟨?_, hzero, ?_, ?_, ?_, ?_, ?_, ?_⟩
  · intro n hd hlo hhi
    exact toLongLong_of_denotes _ n hd hlo hhi
  · intro negative digits n hne hd hn hlo hhi hfield
    simp only [installedSize, hfield, c_str_decimalNumeral negative digits hd]
    have := QString.toLongLong_numeral negative digits hne hd
    simp only [decimalNumeral]
    rw [this]
    simp only [← hn]
    rw [if_pos ⟨hlo, hhi⟩]
  · intro hnone
    simp [installedSize, FindS, hnone, c_str, QString.toLongLong, QString.trimmed]
  · intro hempty
    simp [installedSize, hempty, c_str, QString.toLongLong, QString.trimmed]
  · intro hnodigit
    apply hzero
    intro n hd
    obtain ⟨c, hc, hdig⟩ := denotes_has_digit _ n hd
    rw [hnodigit c hc] at hdig
    cases hdig
  · rintro ⟨c, hc, hdig⟩
    apply hzero
    intro n hd
    have := denotes_tail_digits _ n hd c hc
    rw [hdig] at this
    cases this
  · rintro ⟨c, hc, hd, hs, hm, hp⟩
    exact QString.toLongLong_of_other_char _ c hc hd hs hm hp

theorem installedSize_decimal_witness :
    Denotes exampleDeb.sizeText 2048 ∧ exampleDeb.installedSize = 2048 ∧
    (∃ c ∈ (debWithSize "1 2").sizeText.tail, QString.isDigit c = false) ∧
    (debWithSize "1 2").installedSize = 0 ∧
    (∃ c ∈ (debWithSize "--5").sizeText.tail, QString.isDigit c = false) ∧
    (debWithSize "--5").installedSize = 0 ∧
    (∀ c ∈ (debWithSize "-").sizeText, QString.isDigit c = false) ∧
    (debWithSize "-").installedSize = 0 ∧
    (debWithSize " -40 ").installedSize = -40 :=
  have h2048 : Denotes exampleDeb.sizeText 2048 :=
    ⟨[2, 0, 4, 8], by decide, by decide, Or.inl ⟨by decide, by decide⟩⟩
  have hneg : Denotes (debWithSize " -40 ").sizeText (-40) :=
    ⟨[4, 0], by decide, by decide, Or.inr (Or.inr ⟨by decide, by decide⟩)⟩
  have h12 : ∃ c ∈ (debWithSize "1 2").sizeText.tail, QString.isDigit c = false :=
    ⟨' ', by decide, by decide⟩
  have h5 : ∃ c ∈ (debWithSize "--5").sizeText.tail, QString.isDigit c = false :=
    ⟨'-', by decide, by decide⟩
  have hminus : ∀ c ∈ (debWithSize "-").sizeText, QString.isDigit c = false := by decide
  ⟨h2048, (installedSize_decimal exampleDeb).1 2048 h2048 (by decide) (by decide),
    h12, (installedSize_decimal (debWithSize "1 2")).2.2.2.2.2.2.1 h12,
    h5, (installedSize_decimal (debWithSize "--5")).2.2.2.2.2.2.1 h5,
    hminus, (installedSize_decimal (debWithSize "-")).2.2.2.2.2.1 hminus,
    (installedSize_decimal (debWithSize " -40 ")).1 (-40) hneg (by decide) (by decide)⟩

end DebFile

namespace QString

theorem split_ne_nil (sep : Char) (s : QString) : split sep s ≠ [] := by
  cases s with
  | nil => simp [split]
  | cons c cs =>
    simp only [split]
    split_ifs
    · simp
    · split <;> simp

theorem flatten_split (sep : Char) (s : QString) :
    ((split sep s).map (fun line => line ++ [sep])).flatten = s ++ [sep] := by
  induction s with
  | nil => simp [split]
  | cons c cs ih =>
    simp only [split]
    split_ifs with h
    · subst h
      simp only [List.map_cons, List.flatten_cons, ih]
      simp
    · cases hs : split sep cs with
      | nil => exact absurd hs (split_ne_nil sep cs)
      | cons part parts =>
        rw [hs] at ih
        simp only [List.map_cons, List.flatten_cons] at ih ⊢
        simp only [List.cons_append, List.append_assoc] at ih ⊢
        rw [ih]

theorem startsWith_append (s t extra : QString) (h : startsWith s t = true) :
    startsWith (s ++ extra) t = true := by
  simp only [startsWith, List.isPrefixOf_iff_prefix] at h ⊢
  exact h.trans (List.prefix_append s extra)

end QString

namespace Changelog

theorem scanLine_good (sourcePackage : QString) (run : EntryTextsRun) (consumed : QString)
    (count : Nat) (line : QString) (h : EntryTextsRun.Good sourcePackage run consumed count) :
    EntryTextsRun.Good sourcePackage (scanLine sourcePackage run line)
      (consumed ++ (line ++ ['\n']))
      (count + if QString.startsWith line sourcePackage = true then 1 else 0) := by
  obtain ⟨hb, hne, hfl, hst, hlen, hacc⟩ := h
  unfold scanLine
  have hb' : ¬ run.inBounds = false := by simp [hb]
  rw [if_neg hb']
  by_cases hs : QString.startsWith line sourcePackage = true
  · rw [if_pos hs, if_pos hs]
    refine ⟨hb, by simp, by simp [hfl], ?_, by simp [hlen], hacc⟩
    intro e he
    rcases List.mem_append.mp he with he | he
    · exact hst e he
    · rw [List.mem_singleton.mp he]
      exact QString.startsWith_append _ _ _ hs
  · rw [if_neg hs, if_neg hs]
    obtain ⟨init, last, hlast⟩ : ∃ init last, run.entryTexts = init ++ [last] :=
      ⟨run.entryTexts.dropLast, run.entryTexts.getLast hne,
        (List.dropLast_append_getLast hne).symm⟩
    have hidx : (((init ++ [last]).length : Int) - 1).toNat = init.length := by simp
    have hin : 0 ≤ ((init ++ [last]).length : Int) - 1
        ∧ ((init ++ [last]).length : Int) - 1 < ((init ++ [last]).length : Int) := by
      simp only [List.length_append, List.length_singleton, Nat.cast_add, Nat.cast_one]
      omega
    simp only [hlast, hidx]
    rw [if_pos hin]
    have hset : (init ++ [last]).set init.length
        ((init ++ [last]).getD init.length [] ++ (line ++ ['\n']))
        = init ++ [last ++ (line ++ ['\n'])] := by simp
    rw [hset]
    refine ⟨rfl, by simp, ?_, ?_, ?_, ?_⟩
    · rw [← hfl, hlast]
      simp
    · intro e he
      rcases List.mem_append.mp he with he | he
      · exact hst e (by rw [hlast]; exact List.mem_append_left _ he)
      · rw [List.mem_singleton.mp he]
        exact QString.startsWith_append _ _ _ (hst last (by rw [hlast]; simp))
    · rw [← hlen, hlast]
      simp
    · intro a ha
      rcases List.mem_append.mp ha with ha | ha
      · exact hacc a ha
      · rw [List.mem_singleton.mp ha]
        exact hin

theorem foldl_scanLine_good (sourcePackage : QString) (lines : List QString)
    (run : EntryTextsRun) (consumed : QString) (count : Nat)
    (h : EntryTextsRun.Good sourcePackage run consumed count) :
    EntryTextsRun.Good sourcePackage (lines.foldl (scanLine sourcePackage) run)
      (consumed ++ (lines.map (fun line => line ++ ['\n'])).flatten)
      (count + (lines.filter (fun line => QString.startsWith line sourcePackage)).length) := by
  induction lines generalizing run consumed count with
  | nil => simpa using h
  | cons line rest ih =>
    have hstep := scanLine_good sourcePackage run consumed count line h
    have := ih _ _ _ hstep
    simp only [List.foldl_cons, List.map_cons, List.flatten_cons, List.filter_cons]
    by_cases hs : QString.startsWith line sourcePackage = true
    · simp only [hs, if_true, List.length_cons] at this ⊢
      simpa [List.append_assoc, Nat.add_assoc, Nat.add_comm 1] using this
    · simp only [hs, if_false, Nat.add_zero] at this ⊢
      simpa [List.append_assoc] using this

theorem scan_of_first_line (c : Changelog)
    (h : QString.startsWith (firstLine c) c.sourcePackage = true) :
    EntryTextsRun.Good c.sourcePackage (scan c) (c.data ++ ['\n'])
      ((QString.split '\n' c.data).filter
        (fun line => QString.startsWith line c.sourcePackage)).length := by
  unfold scan
  have hflat := QString.flatten_split '\n' c.data
  cases hsplit : QString.split '\n' c.data with
  | nil => exact absurd hsplit (QString.split_ne_nil _ _)
  | cons l0 rest =>
    have h0 : QString.startsWith l0 c.sourcePackage = true := by
      simpa [firstLine, hsplit] using h
    rw [hsplit] at hflat
    simp only [List.map_cons, List.flatten_cons] at hflat
    have hinit : EntryTextsRun.Good c.sourcePackage
        (scanLine c.sourcePackage { entryTexts := [], accesses := [], inBounds := true } l0)
        (l0 ++ ['\n']) 1 := by
      have hstep : scanLine c.sourcePackage
          { entryTexts := [], accesses := [], inBounds := true } l0
          = { entryTexts := [l0 ++ ['\n']], accesses := [], inBounds := true } := by
        simp [scanLine, h0]
      rw [hstep]
      refine ⟨rfl, by simp, by simp, ?_, by simp, by simp⟩
      intro e he
      simp only [List.mem_singleton] at he
      rw [he]
      exact QString.startsWith_append _ _ _ h0
    have := foldl_scanLine_good c.sourcePackage rest _ _ _ hinit
    rw [hflat] at this
    simp only [List.foldl_cons, List.filter_cons, h0, if_true, List.length_cons]
    rw [Nat.add_comm]
    exact this

theorem foldl_scanLine_failed (sourcePackage : QString) (lines : List QString)
    (run : EntryTextsRun) (h : run.inBounds = false) :
    lines.foldl (scanLine sourcePackage) run = run := by
  induction lines with
  | nil => rfl
  | cons line rest ih =>
    have : scanLine sourcePackage run line = run := by simp [scanLine, h]
    rw [List.foldl_cons, this, ih]

theorem scan_of_stray_first_line (c : Changelog)
    (h : QString.startsWith (firstLine c) c.sourcePackage = false) :
    scan c = { entryTexts := [], accesses := [(-1, 0)], inBounds := false } := by
  unfold scan
  cases hsplit : QString.split '\n' c.data with
  | nil => exact absurd hsplit (QString.split_ne_nil _ _)
  | cons l0 rest =>
    have h0 : QString.startsWith l0 c.sourcePackage = false := by
      simpa [firstLine, hsplit] using h
    rw [List.foldl_cons]
    have hstep : scanLine c.sourcePackage { entryTexts := [], accesses := [], inBounds := true } l0
        = { entryTexts := [], accesses := [(-1, 0)], inBounds := false } := by
      simp [scanLine, h0]
    rw [hstep]
    exact foldl_scanLine_failed _ _ _ rfl

theorem foldl_create (sourcePackage : QString) (stanzas : List QString)
    (acc : ChangelogEntryList) :
    stanzas.foldl (fun entries stanza => entries ++ [ChangelogEntry.create stanza sourcePackage])
        acc
      = acc ++ stanzas.map (fun stanza => ChangelogEntry.create stanza sourcePackage) := by
  induction stanzas generalizing acc with
  | nil => simp
  | cons s ss ih => simp [ih]

/-- C19: when the first line of the text begins with the source package name,
the body of `entries()` builds a list of entries whose texts, concatenated in order, are
`text()` followed by one newline; every entry text begins with the source
package name; and there is one entry for each line of the text that begins
with the source package name. -/
theorem entries_partition_text (c : Changelog)
    (h : QString.startsWith (firstLine c) c.sourcePackage = true) :
    ∃ es : ChangelogEntryList, entriesBuilt c = some es ∧
      (es.map ChangelogEntry.entryText).flatten = c.text ++ ['\n'] ∧
      (∀ e ∈ es, QString.startsWith e.entryText c.sourcePackage = true) ∧
      es.length = ((QString.split '\n' c.text).filter
        (fun line => QString.startsWith line c.sourcePackage)).length := by
  obtain ⟨hb, _, hfl, hst, hlen, _⟩ := scan_of_first_line c h
  refine ⟨(scan c).entryTexts.map (fun stanza => ChangelogEntry.create stanza c.sourcePackage),
    ?_, ?_, ?_, ?_⟩
  · simp [entriesBuilt, hb, foldl_create]
  · have : (List.map ChangelogEntry.entryText
        ((scan c).entryTexts.map (fun stanza => ChangelogEntry.create stanza c.sourcePackage)))
        = (scan c).entryTexts := by
      simp [ChangelogEntry.entryText, ChangelogEntry.create, Function.comp_def]
    rw [this, hfl]
    rfl
  · intro e he
    obtain ⟨stanza, hs, rfl⟩ := List.mem_map.mp he
    exact hst stanza hs
  · rw [List.length_map, hlen]
    rfl

theorem entries_partition_text_witness :
    QString.startsWith (firstLine exampleChangelog) exampleChangelog.sourcePackage = true ∧
    ∃ es : ChangelogEntryList, entriesBuilt exampleChangelog = some es ∧
      (es.map ChangelogEntry.entryText).flatten = exampleChangelog.text ++ ['\n'] ∧
      (∀ e ∈ es, QString.startsWith e.entryText exampleChangelog.sourcePackage = true) ∧
      es.length = ((QString.split '\n' exampleChangelog.text).filter
        (fun line => QString.startsWith line exampleChangelog.sourcePackage)).length :=
  ⟨by decide, entries_partition_text exampleChangelog (by decide)⟩

/-- C20: the first loop of `entries()` reads `entryTexts` within bounds exactly
when the first line of the text begins with the source package name. With
that first line every access `entryTexts.at(curIndex)` has
0 <= curIndex < entryTexts.count(); without it the first access is made at
index -1 on an empty list. -/
theorem entries_access_in_bounds_iff (c : Changelog) :
    (QString.startsWith (firstLine c) c.sourcePackage = true ↔
      (scan c).inBounds = true ∧ ∀ a ∈ (scan c).accesses, 0 ≤ a.1 ∧ a.1 < (a.2 : Int)) ∧
    (QString.startsWith (firstLine c) c.sourcePackage = false →
      (scan c).accesses.head? = some (-1, 0) ∧ (scan c).inBounds = false) := by
  have hstray : QString.startsWith (firstLine c) c.sourcePackage = false →
      (scan c).accesses.head? = some (-1, 0) ∧ (scan c).inBounds = false := by
    intro h
    rw [scan_of_stray_first_line c h]
    exact ⟨rfl, rfl⟩
  refine ⟨⟨?_, ?_⟩, hstray⟩
  · intro h
    obtain ⟨hb, _, _, _, _, hacc⟩ := scan_of_first_line c h
    exact ⟨hb, hacc⟩
  · rintro ⟨hb, _⟩
    by_contra hn
    have hf : QString.startsWith (firstLine c) c.sourcePackage = false := by
      simpa using hn
    rw [(hstray hf).2] at hb
    cases hb

theorem entries_access_in_bounds_iff_witness :
    QString.startsWith (firstLine strayChangelog) strayChangelog.sourcePackage = false ∧
    (scan strayChangelog).accesses.head? = some (-1, 0) ∧
    (scan strayChangelog).inBounds = false ∧
    QString.startsWith (firstLine exampleChangelog) exampleChangelog.sourcePackage = true ∧
    (scan exampleChangelog).accesses = [(0, 1), (0, 1), (1, 2)] :=
  have w := (entries_access_in_bounds_iff strayChangelog).2 (by decide)
  ⟨by decide, w.1, w.2, by decide, by decide⟩

theorem foldl_newEntries (p : ChangelogEntry → Bool) (all : ChangelogEntryList)
    (acc : ChangelogEntryList) :
    all.foldl (fun newEntries entry => if p entry = true then newEntries ++ [entry]
        else newEntries) acc
      = acc ++ all.filter p := by
  induction all generalizing acc with
  | nil => simp
  | cons e es ih =>
    simp only [List.foldl_cons, List.filter_cons]
    by_cases hp : p e = true
    · simp [hp, ih]
    · simp [hp, ih]

/-- C18 against the code: for the changelog of hello with the entries 2.0 and
1.0, the body of `entries()` builds both entries, and the entries newer than
1.0 among them are the single entry 2.0; but `entries()` has no `return`
statement, so the call in `newEntriesSince("1.0")` yields no list and
`newEntriesSince` has no list to return either. -/
theorem newEntriesSince_yields_no_list :
    (entriesBuilt exampleChangelog).map (List.map ChangelogEntry.version)
      = some ["2.0".toList, "1.0".toList] ∧
    (entriesBuilt exampleChangelog).map
        (fun built => (built.filter
          (fun e => decide (exampleCompare e.version "1.0".toList > 0))).map
            ChangelogEntry.version)
      = some ["2.0".toList] ∧
    entries exampleChangelog = none ∧
    newEntriesSince exampleCompare exampleChangelog "1.0".toList = none := by
  refine ⟨by decide, by decide, by decide, by decide⟩

end Changelog

namespace QString

theorem split_head_of_line (line rest : QString) (hline : '\n' ∉ line)
    (hrest : rest = [] ∨ rest.head? = some '\n') :
    (split '\n' (line ++ rest)).headD [] = line := by
  induction line with
  | nil =>
    rcases hrest with h | h
    · subst h
      rfl
    · cases rest with
      | nil => cases h
      | cons c cs =>
        simp only [List.head?_cons, Option.some.injEq] at h
        subst h
        simp [split]
  | cons c cs ih =>
    have hc : c ≠ '\n' := fun e => hline (e ▸ List.mem_cons_self c cs)
    have hcs : '\n' ∉ cs := fun h => hline (List.mem_cons_of_mem c h)
    have := ih hcs
    simp only [List.cons_append, split, if_neg hc]
    cases hs : split '\n' (cs ++ rest) with
    | nil => exact absurd hs (split_ne_nil _ _)
    | cons part parts =>
      rw [hs] at this
      simp only [List.headD_cons] at this ⊢
      rw [this]

theorem isPrefixOf?_append (p body : List Char) : List.isPrefixOf? p (p ++ body) = some body := by
  induction p with
  | nil => simp [List.isPrefixOf?]
  | cons c cs ih => simp [List.isPrefixOf?, ih]

theorem eq_append_of_isPrefixOf? (p l body : List Char) (h : List.isPrefixOf? p l = some body) :
    l = p ++ body := by
  induction p generalizing l with
  | nil =>
    simp only [List.isPrefixOf?, Option.some.injEq] at h
    simp [h]
  | cons c cs ih =>
    cases l with
    | nil => simp [List.isPrefixOf?] at h
    | cons d ds =>
      simp only [List.isPrefixOf?] at h
      by_cases e : c = d
      · subst e
        simp only [beq_self_eq_true, if_true] at h
        rw [ih ds h]
        rfl
      · simp [e] at h

theorem before_last_paren (v r : List Char) (hr : ')' ∉ r) :
    (((v ++ ')' :: r).reverse.dropWhile (fun c => c ≠ ')')).tail).reverse = v := by
  have hrev : (v ++ ')' :: r).reverse = r.reverse ++ ')' :: v.reverse := by simp
  rw [hrev]
  have hdrop : ∀ (l : List Char), (∀ c ∈ l, c ≠ ')') →
      (l ++ ')' :: v.reverse).dropWhile (fun c => decide (c ≠ ')')) = ')' :: v.reverse := by
    intro l hl
    induction l with
    | nil => simp [List.dropWhile]
    | cons a as ih =>
      have ha : a ≠ ')' := hl a (List.mem_cons_self a as)
      simp only [List.cons_append, List.dropWhile, ha, ne_eq, not_false_eq_true, decide_True]
      exact ih (fun c hc => hl c (List.mem_cons_of_mem a hc))
  rw [hdrop r.reverse (fun c hc e => hr (e ▸ List.mem_reverse.mp hc))]
  simp

end QString

namespace ChangelogEntry

/-- C21: for a source package name s and strings v and r without newline, r
without ')': an entry built from data whose first line is s, a space, '(', v,
')' and then r has version() = v. And when the first line of the data has not
the form s, space, '(', anything, ')', anything, version() is empty. -/
theorem version_of_first_line (s : QString) :
    (∀ (v r rest : QString), '\n' ∉ s → '\n' ∉ v → '\n' ∉ r → ')' ∉ r →
      (rest = [] ∨ rest.head? = some '\n') →
      (create (versionLine s v r ++ rest) s).version = v) ∧
    (∀ data : QString,
      (∀ a b : QString, (QString.split '\n' data).headD [] ≠ versionLine s a b) →
      (create data s).version = []) := by
  constructor
  · intro v r rest hs hv hr hp hrest
    have hline : '\n' ∉ versionLine s v r := by
      simp only [versionLine, List.mem_append, List.mem_cons, not_or]
      refine ⟨hs, by decide, by decide, hv, by decide, hr⟩
    have hhead := QString.split_head_of_line (versionLine s v r) rest hline hrest
    have hform : versionLine s v r = (s ++ [' ', '(']) ++ (v ++ ')' :: r) := by
      simp [versionLine]
    simp only [create, ChangelogEntryPrivate.parseData, hhead]
    rw [hform, QString.isPrefixOf?_append]
    have hmem : ')' ∈ v ++ ')' :: r := by simp
    simp only [hmem, if_true]
    exact QString.before_last_paren v r hp
  · intro data hno
    simp only [create, ChangelogEntryPrivate.parseData]
    cases hpre : List.isPrefixOf? (s ++ [' ', '(']) ((QString.split '\n' data).headD []) with
    | none => rfl
    | some body =>
      simp only
      split_ifs with hmem
      · exfalso
        obtain ⟨a, b, hab⟩ := List.append_of_mem hmem
        apply hno a b
        rw [QString.eq_append_of_isPrefixOf? _ _ _ hpre, hab]
        simp [versionLine]
      · rfl

theorem version_of_first_line_witness :
    '\n' ∉ "hello".toList ∧ '\n' ∉ "2.10-1".toList ∧ '\n' ∉ " sid; urgency=low".toList ∧
    ')' ∉ " sid; urgency=low".toList ∧
    (create (versionLine "hello".toList "2.10-1".toList " sid; urgency=low".toList
        ++ "\n  * New".toList) "hello".toList).version = "2.10-1".toList ∧
    (∀ a b : QString,
      (QString.split '\n' "  * New".toList).headD [] ≠ versionLine "hello".toList a b) ∧
    (create "  * New".toList "hello".toList).version = [] :=
  have hno : ∀ a b : QString,
      (QString.split '\n' "  * New".toList).headD [] ≠ versionLine "hello".toList a b := by
    intro a b h
    have h2 : (QString.split '\n' "  * New".toList).headD [] = "  * New".toList := by decide
    rw [h2] at h
    simp [versionLine] at h
  ⟨by decide, by decide, by decide, by decide,
    (version_of_first_line "hello".toList).1 "2.10-1".toList " sid; urgency=low".toList
      "\n  * New".toList (by decide) (by decide) (by decide) (by decide) (Or.inr rfl),
    hno, (version_of_first_line "hello".toList).2 "  * New".toList hno⟩

end ChangelogEntry

namespace Package

theorem hasFlag_flag (layout : Layout) (word : Nat) (f : State) :
    hasFlag word (flag layout f) = word.testBit (layout f) := by
  simp only [hasFlag, flag, Nat.one_shiftLeft]
  cases hb : word.testBit (layout f) with
  | true =>
    have : (word &&& 2 ^ layout f).testBit (layout f) = true := by
      simp [Nat.testBit_and, hb, Nat.testBit_two_pow_self]
    have hne : word &&& 2 ^ layout f ≠ 0 := by
      intro h0
      rw [h0] at this
      simp at this
    simpa using hne
  | false =>
    have : word &&& 2 ^ layout f = 0 := by
      apply Nat.eq_of_testBit_eq
      intro i
      simp only [Nat.testBit_and, Nat.zero_testBit, Nat.testBit_two_pow]
      by_cases e : layout f = i
      · subst e; simp [hb]
      · simp [e]
    simp [this]

theorem hasFlag_ToReInstall (layout : Layout) (h : Function.Injective layout) (c : CacheState) :
    hasFlag (state layout c) (flag layout State.ToReInstall) = c.ReInstall := by
  rw [hasFlag_flag]
  simp only [state, flag, Nat.one_shiftLeft,
    apply_ite (fun w : Nat => w.testBit (layout State.ToReInstall)),
    Nat.testBit_or, Nat.zero_testBit, Nat.testBit_two_pow, h.eq_iff]
  simp

theorem hasFlag_NewInstall (layout : Layout) (h : Function.Injective layout) (c : CacheState) :
    hasFlag (state layout c) (flag layout State.NewInstall)
      = (!c.ReInstall && c.NewInstall) := by
  rw [hasFlag_flag]
  simp only [state, flag, Nat.one_shiftLeft,
    apply_ite (fun w : Nat => w.testBit (layout State.NewInstall)),
    Nat.testBit_or, Nat.zero_testBit, Nat.testBit_two_pow, h.eq_iff]
  simp

theorem hasFlag_ToUpgrade (layout : Layout) (h : Function.Injective layout) (c : CacheState) :
    hasFlag (state layout c) (flag layout State.ToUpgrade)
      = (!c.ReInstall && !c.NewInstall && c.Upgrade) := by
  rw [hasFlag_flag]
  simp only [state, flag, Nat.one_shiftLeft,
    apply_ite (fun w : Nat => w.testBit (layout State.ToUpgrade)),
    Nat.testBit_or, Nat.zero_testBit, Nat.testBit_two_pow, h.eq_iff]
  simp
  cases c.ReInstall <;> cases c.NewInstall <;> cases c.Upgrade <;> cases c.Downgrade <;>
    cases c.Delete <;> cases c.Keep <;> simp

theorem hasFlag_ToRemove (layout : Layout) (h : Function.Injective layout) (c : CacheState) :
    hasFlag (state layout c) (flag layout State.ToRemove)
      = (!c.ReInstall && !c.NewInstall && !c.Upgrade && !c.Downgrade && c.Delete) := by
  rw [hasFlag_flag]
  simp only [state, flag, Nat.one_shiftLeft,
    apply_ite (fun w : Nat => w.testBit (layout State.ToRemove)),
    Nat.testBit_or, Nat.zero_testBit, Nat.testBit_two_pow, h.eq_iff]
  simp
  cases c.ReInstall <;> cases c.NewInstall <;> cases c.Upgrade <;> cases c.Downgrade <;>
    cases c.Delete <;> cases c.Purge <;> cases c.Keep <;> simp

theorem hasFlag_ToPurge (layout : Layout) (h : Function.Injective layout) (c : CacheState) :
    hasFlag (state layout c) (flag layout State.ToPurge)
      = (!c.ReInstall && !c.NewInstall && !c.Upgrade && !c.Downgrade && c.Delete && c.Purge) := by
  rw [hasFlag_flag]
  simp only [state, flag, Nat.one_shiftLeft,
    apply_ite (fun w : Nat => w.testBit (layout State.ToPurge)),
    Nat.testBit_or, Nat.zero_testBit, Nat.testBit_two_pow, h.eq_iff]
  simp
  cases c.ReInstall <;> cases c.NewInstall <;> cases c.Upgrade <;> cases c.Downgrade <;>
    cases c.Delete <;> cases c.Purge <;> cases c.Keep <;> simp

theorem hasFlag_ToKeep (layout : Layout) (h : Function.Injective layout) (c : CacheState) :
    hasFlag (state layout c) (flag layout State.ToKeep)
      = (!c.ReInstall && !c.NewInstall && !c.Upgrade && !c.Downgrade && !c.Delete && c.Keep) := by
  rw [hasFlag_flag]
  simp only [state, flag, Nat.one_shiftLeft,
    apply_ite (fun w : Nat => w.testBit (layout State.ToKeep)),
    Nat.testBit_or, Nat.zero_testBit, Nat.testBit_two_pow, h.eq_iff]
  simp
  cases c.ReInstall <;> cases c.NewInstall <;> cases c.Upgrade <;> cases c.Downgrade <;>
    cases c.Delete <;> cases c.Keep <;> simp

theorem hasFlag_ToDowngrade (layout : Layout) (h : Function.Injective layout) (c : CacheState) :
    hasFlag (state layout c) (flag layout State.ToDowngrade)
      = ((!c.ReInstall && !c.NewInstall && !c.Upgrade && c.Downgrade)
          || (c.hasCurrentVer && c.Downgrade)) := by
  rw [hasFlag_flag]
  simp only [state, flag, Nat.one_shiftLeft,
    apply_ite (fun w : Nat => w.testBit (layout State.ToDowngrade)),
    Nat.testBit_or, Nat.zero_testBit, Nat.testBit_two_pow, h.eq_iff]
  simp
  cases c.ReInstall <;> cases c.NewInstall <;> cases c.Upgrade <;> cases c.Downgrade <;>
    cases c.Delete <;> cases c.Keep <;> cases c.hasCurrentVer <;> simp

theorem hasFlag_Installed (layout : Layout) (h : Function.Injective layout) (c : CacheState) :
    hasFlag (state layout c) (flag layout State.Installed) = c.hasCurrentVer := by
  rw [hasFlag_flag]
  simp only [state, flag, Nat.one_shiftLeft,
    apply_ite (fun w : Nat => w.testBit (layout State.Installed)),
    Nat.testBit_or, Nat.zero_testBit, Nat.testBit_two_pow, h.eq_iff]
  simp

theorem hasFlag_Outdated (layout : Layout) (h : Function.Injective layout) (c : CacheState) :
    hasFlag (state layout c) (flag layout State.Outdated)
      = (c.hasCurrentVer && c.Upgradable && c.hasCandidateVer) := by
  rw [hasFlag_flag]
  simp only [state, flag, Nat.one_shiftLeft,
    apply_ite (fun w : Nat => w.testBit (layout State.Outdated)),
    Nat.testBit_or, Nat.zero_testBit, Nat.testBit_two_pow, h.eq_iff]
  simp
  cases c.ReInstall <;> cases c.NewInstall <;> cases c.Upgrade <;> cases c.Downgrade <;>
    cases c.Delete <;> cases c.Keep <;> cases c.hasCurrentVer <;> cases c.Upgradable <;>
    cases c.hasCandidateVer <;> simp

theorem hasFlag_Held (layout : Layout) (h : Function.Injective layout) (c : CacheState) :
    hasFlag (state layout c) (flag layout State.Held)
      = (c.hasCurrentVer && c.Upgradable && c.hasCandidateVer && c.Keep) := by
  rw [hasFlag_flag]
  simp only [state, flag, Nat.one_shiftLeft,
    apply_ite (fun w : Nat => w.testBit (layout State.Held)),
    Nat.testBit_or, Nat.zero_testBit, Nat.testBit_two_pow, h.eq_iff]
  simp
  cases c.ReInstall <;> cases c.NewInstall <;> cases c.Upgrade <;> cases c.Downgrade <;>
    cases c.Delete <;> cases c.Keep <;> cases c.hasCurrentVer <;> cases c.Upgradable <;>
    cases c.hasCandidateVer <;> simp

theorem exampleLayout_injective : Function.Injective exampleLayout := by
  intro a b hab
  cases a <;> cases b <;> first | rfl | (simp [exampleLayout] at hab)

/-- C22: when every flag is a bit of its own, the word `Package::state()`
returns has, for every state of the dependency cache, at most one of
ToReInstall, NewInstall, ToUpgrade, ToRemove and ToKeep set, and ToPurge set
only together with ToRemove. ToDowngrade is set in a second place, outside
the chain that chooses among them: for a package with a current version that
is marked for reinstallation and downgrade, ToReInstall and ToDowngrade are
both set. -/
theorem state_one_pending_action (layout : Layout) (h : Function.Injective layout)
    (c : CacheState) :
    countSet layout (state layout c)
        [State.ToReInstall, State.NewInstall, State.ToUpgrade, State.ToRemove, State.ToKeep]
      ≤ 1 ∧
    (hasFlag (state layout c) (flag layout State.ToPurge) = true →
      hasFlag (state layout c) (flag layout State.ToRemove) = true) ∧
    (c.ReInstall = true → c.Downgrade = true → c.hasCurrentVer = true →
      hasFlag (state layout c) (flag layout State.ToReInstall) = true ∧
      hasFlag (state layout c) (flag layout State.ToDowngrade) = true) := by
  refine ⟨?_, ?_, ?_⟩
  · simp only [countSet, List.filter, hasFlag_ToReInstall layout h, hasFlag_NewInstall layout h,
      hasFlag_ToUpgrade layout h, hasFlag_ToRemove layout h, hasFlag_ToKeep layout h]
    cases c.ReInstall <;> cases c.NewInstall <;> cases c.Upgrade <;> cases c.Downgrade <;>
      cases c.Delete <;> cases c.Keep <;> simp
  · rw [hasFlag_ToPurge layout h, hasFlag_ToRemove layout h]
    intro hp
    simp only [Bool.and_eq_true] at hp ⊢
    exact hp.1
  · intro h1 h2 h3
    rw [hasFlag_ToReInstall layout h, hasFlag_ToDowngrade layout h, h1, h2, h3]
    simp

theorem state_one_pending_action_witness :
    Function.Injective exampleLayout ∧
    hasFlag (state exampleLayout purgedPackage) (flag exampleLayout State.ToPurge) = true ∧
    hasFlag (state exampleLayout purgedPackage) (flag exampleLayout State.ToRemove) = true ∧
    countSet exampleLayout (state exampleLayout purgedPackage)
        [State.ToReInstall, State.NewInstall, State.ToUpgrade, State.ToRemove, State.ToKeep]
      ≤ 1 ∧
    hasFlag (state exampleLayout reinstalledDowngrade) (flag exampleLayout State.ToReInstall)
      = true ∧
    hasFlag (state exampleLayout reinstalledDowngrade) (flag exampleLayout State.ToDowngrade)
      = true :=
  have w := state_one_pending_action exampleLayout exampleLayout_injective purgedPackage
  have w2 := (state_one_pending_action exampleLayout exampleLayout_injective
    reinstalledDowngrade).2.2 rfl rfl rfl
  ⟨exampleLayout_injective, by decide, w.2.1 (by decide), w.1, w2.1, w2.2⟩

/-- C23: when every flag is a bit of its own, the word `Package::state()`
returns has Installed set if and only if `isInstalled()` returns true (the
package has a current version); Held set implies Outdated set, and Outdated
set implies Installed set. -/
theorem state_installed_iff_isInstalled (layout : Layout) (h : Function.Injective layout)
    (c : CacheState) :
    (hasFlag (state layout c) (flag layout State.Installed) = true ↔ isInstalled c = true) ∧
    (isInstalled c = true ↔ c.hasCurrentVer = true) ∧
    (hasFlag (state layout c) (flag layout State.Held) = true →
      hasFlag (state layout c) (flag layout State.Outdated) = true) ∧
    (hasFlag (state layout c) (flag layout State.Outdated) = true →
      hasFlag (state layout c) (flag layout State.Installed) = true) := by
  rw [hasFlag_Installed layout h, hasFlag_Held layout h, hasFlag_Outdated layout h]
  refine ⟨?_, ?_, ?_, ?_⟩
  · simp [isInstalled]
  · simp [isInstalled]
  · intro hh
    simp only [Bool.and_eq_true] at hh ⊢
    exact hh.1
  · intro ho
    simp only [Bool.and_eq_true] at ho
    exact ho.1.1

theorem state_installed_iff_isInstalled_witness :
    Function.Injective exampleLayout ∧
    hasFlag (state exampleLayout heldPackage) (flag exampleLayout State.Held) = true ∧
    hasFlag (state exampleLayout heldPackage) (flag exampleLayout State.Outdated) = true ∧
    hasFlag (state exampleLayout heldPackage) (flag exampleLayout State.Installed) = true ∧
    isInstalled heldPackage = true :=
  have w := state_installed_iff_isInstalled exampleLayout exampleLayout_injective heldPackage
  ⟨exampleLayout_injective, by decide, w.2.2.1 (by decide),
    w.2.2.2 (w.2.2.1 (by decide)), w.1.mp (w.2.2.2 (w.2.2.1 (by decide)))⟩

end Package

end QApt
